import Mathlib

/-!
# TransFile (FileRelayDock): the file registry, drag-in, drag-out and preview text

A shallow embedding of `src/main.cpp`.  Wide-character buffers are lists of
characters; the globals `g_paths`, `g_names`, `g_count` are fields of a record;
the window procedure is a function from a state and a message to a new state.
-/

namespace TransFile

/-! ## Wide strings -/

/-- Contents of a `wchar_t` buffer: the characters stored from its start, the
buffer's terminating NUL coming right after them. -/
abbrev WStr := List Char

/-- The wide character `L'\0'`. -/
def NUL : Char := Char.ofNat 0

/-- The wide character written `L'\\'` in the source. -/
def BACKSLASH : Char := Char.ofNat 92

/-- The constant `static const int HARD_MAX = 100;`. -/
def HARD_MAX : Nat := 100

/-- Windows SDK constant `MAX_PATH` (260), the row size of `g_paths` and `g_names`. -/
def MAX_PATH : Nat := 260

/-- The C string held by a buffer: its characters before the first NUL. -/
def cstr (s : WStr) : WStr := s.takeWhile (fun c => c != NUL)

/-- The function `wcslen(s)`. -/
def wcslen (s : WStr) : Nat := (cstr s).length

/-- The call `StringCchCopyW(dst, cch, src)`: the new contents of `dst`, which is `src`
cut to `cch - 1` characters so that the terminator fits. -/
def StringCchCopyW (cch : Nat) (src : WStr) : WStr := (cstr src).take (cch - 1)

/-- The call `StringCchCatW(dst, cch, src)`: the new contents of `dst`, the concatenation
cut to `cch - 1` characters. -/
def StringCchCatW (dst : WStr) (cch : Nat) (src : WStr) : WStr :=
  (cstr dst ++ cstr src).take (cch - 1)

/-- Index of the last occurrence of `c` in a list of characters. -/
def lastIndexOf (c : Char) : WStr → Option Nat
  | [] => none
  | x :: xs =>
    match lastIndexOf c xs with
    | some i => some (i + 1)
    | none => if x = c then some 0 else none

/-- The call `wcsrchr(s, c)`: offset of the last `c` in the C string `s`, `none` for `NULL`. -/
def wcsrchr (s : WStr) (c : Char) : Option Nat := lastIndexOf c (cstr s)

/-- The call `DragQueryFileW(hDrop, i, buf, cch)` for the dropped path `p` at index `i`:
the name is copied into `buf` cut to `cch - 1` characters and the number of
characters copied is returned. -/
def DragQueryFileW (p : WStr) (cch : Nat) : Nat × WStr :=
  let buf := (cstr p).take (cch - 1)
  (buf.length, buf)

/-! ## The registry -/

/-- The globals `g_paths[HARD_MAX][MAX_PATH]`, `g_names[HARD_MAX][MAX_PATH]` and
`g_count`.  Rows are indexed by `Nat`; only indices below `HARD_MAX` exist in
the program, which `writeRow` checks.  `g_count` is an `int` that the program
only sets to 0 and increments, hence a natural number here. -/
structure Registry where
  g_paths : Nat → WStr
  g_names : Nat → WStr
  g_count : Nat

/-- The registry at process start: zero-initialised statics. -/
def Registry.init : Registry :=
  { g_paths := fun _ => [], g_names := fun _ => [], g_count := 0 }

/-- A store into row `i` of a `[HARD_MAX][MAX_PATH]` array; `none` when the row
does not exist. -/
def writeRow (a : Nat → WStr) (i : Nat) (v : WStr) : Option (Nat → WStr) :=
  if i < HARD_MAX then some (fun j => if j = i then v else a j) else none

/-- The full paths of the registry, rows `0 .. g_count - 1` of `g_paths`. -/
def storedPaths (r : Registry) : List WStr := (List.range r.g_count).map r.g_paths

/-- The display names of the registry, rows `0 .. g_count - 1` of `g_names`. -/
def storedNames (r : Registry) : List WStr := (List.range r.g_count).map r.g_names

/-- The registry entries, path and display name, in order. -/
def entries (r : Registry) : List (WStr × WStr) :=
  (List.range r.g_count).map (fun i => (r.g_paths i, r.g_names i))

/-- The function `LoadIniStyle`, the lines on `max_count`: the integer read from the
configuration is clamped to `1 .. HARD_MAX`. -/
def LoadIniStyle_maxCount (ini : Int) : Int :=
  let maxCount := ini
  let maxCount := if maxCount < 1 then 1 else maxCount
  if maxCount > (HARD_MAX : Int) then (HARD_MAX : Int) else maxCount

/-- The source of the display name: `base ? (base + 1) : path`. -/
def baseOrPath (path : WStr) : WStr :=
  match wcsrchr path BACKSLASH with
  | some i => path.drop (i + 1)
  | none => path

/-- The body of the `for` loop of `WM_DROPFILES`, over the dropped paths still
to visit.  `none` is a store outside the arrays. -/
def dropLoop (maxCount : Int) : List WStr → Registry → Option Registry
  | [], r => some r
  | p :: rest, r =>
    if (r.g_count : Int) < maxCount then
      let q := DragQueryFileW p MAX_PATH
      if q.1 > 0 then
        match writeRow r.g_paths r.g_count (StringCchCopyW MAX_PATH q.2) with
        | none => none
        | some paths =>
          match writeRow r.g_names r.g_count (StringCchCopyW MAX_PATH (baseOrPath q.2)) with
          | none => none
          | some names =>
            dropLoop maxCount rest { g_paths := paths, g_names := names, g_count := r.g_count + 1 }
      else dropLoop maxCount rest r
    else some r

/-- The `WM_DROPFILES` case of `MainWndProc` on the registry: `ctrlDown` is the
sampled Ctrl key, `drop` the paths of the `HDROP` in order. -/
def dropFiles (maxCount : Int) (ctrlDown : Bool) (drop : List WStr) (r : Registry) :
    Option Registry :=
  dropLoop maxCount drop (if !ctrlDown then { r with g_count := 0 } else r)

/-- What one dropped path contributes to the registry: nothing when the query
returns 0, else the stored path and display name. -/
def accept (p : WStr) : Option (WStr × WStr) :=
  let q := DragQueryFileW p MAX_PATH
  if q.1 > 0 then
    some (StringCchCopyW MAX_PATH q.2, StringCchCopyW MAX_PATH (baseOrPath q.2))
  else none

/-- A dropped path that is stored as it is: a non-empty string without NUL that
fits a `MAX_PATH` buffer with its terminator. -/
def WellFormedPath (p : WStr) : Prop := p ≠ [] ∧ NUL ∉ p ∧ p.length < MAX_PATH

instance (p : WStr) : Decidable (WellFormedPath p) := by
  unfold WellFormedPath; infer_instance

/-- A sequence of drops handled one after the other, each with its sampled Ctrl
key; `none` as soon as one of them stores outside the arrays. -/
def runDrops (maxCount : Int) : List (Bool × List WStr) → Registry → Option Registry
  | [], r => some r
  | d :: rest, r =>
    match dropFiles maxCount d.1 d.2 r with
    | none => none
    | some r' => runDrops maxCount rest r'

/-- A path of 260 characters, `C:` and a backslash followed by 257 letters. -/
def longPath : WStr := "C:".toList ++ [BACKSLASH] ++ List.replicate 257 (Char.ofNat 97)

/-- A registry holding the one path `x`. -/
def regX : Registry :=
  { g_paths := fun i => if i = 0 then "x".toList else [],
    g_names := fun i => if i = 0 then "x".toList else [],
    g_count := 1 }

/-! ## Drag-out: the data object -/

/-- The members `m_list` and `m_listChars` of `DataObject`.  `m_list` is `none`
for `nullptr`, else the characters written to the buffer from its start;
`allocated` is the number of characters obtained from `CoTaskMemAlloc`. -/
structure DataObject where
  m_list : Option WStr
  m_listChars : Nat
  allocated : Nat
deriving DecidableEq

/-- The counting loop of the constructor: `chars` after visiting the rows in
`rows`, starting from `chars`.  (`SIZE_T` cannot wrap here: a row holds fewer
than `MAX_PATH` characters and there are at most `HARD_MAX` rows.) -/
def DataObject.countLoop (paths : Nat → WStr) : List Nat → Nat → Nat
  | [], chars => chars
  | i :: rest, chars =>
    let len := wcslen (paths i)
    if len = 0 then DataObject.countLoop paths rest chars
    else DataObject.countLoop paths rest (chars + (len + 1))

/-- The copying loop of the constructor: `written` is the part of the buffer
before `p`.  `none` is a store past the `chars` characters allocated. -/
def DataObject.copyLoop (paths : Nat → WStr) (chars : Nat) : List Nat → WStr → Option WStr
  | [], written => some written
  | i :: rest, written =>
    if (paths i).headD NUL = NUL then DataObject.copyLoop paths chars rest written
    else
      let len := wcslen (paths i)
      if written.length + len + 1 ≤ chars then
        DataObject.copyLoop paths chars rest (written ++ (paths i).take len ++ [NUL])
      else none

/-- The constructor `DataObject(paths, count)`; `allocOk` tells whether
`CoTaskMemAlloc` returns a buffer.  `none` is a store past the allocation. -/
def DataObject.new (paths : Nat → WStr) (count : Int) (allocOk : Bool) : Option DataObject :=
  if count < 1 then some { m_list := none, m_listChars := 0, allocated := 0 }
  else
    let chars := DataObject.countLoop paths (List.range count.toNat) 1
    let chars := if chars < 2 then 2 else chars
    if !allocOk then some { m_list := none, m_listChars := 0, allocated := 0 }
    else
      match DataObject.copyLoop paths chars (List.range count.toNat) [] with
      | none => none
      | some written =>
        if written.length + 1 ≤ chars then
          some { m_list := some (written ++ [NUL]), m_listChars := written.length + 1,
                 allocated := chars }
        else none

/-- The result codes returned by `GetData`. -/
inductive HRESULT where
  | S_OK | E_POINTER | DV_E_FORMATETC | DV_E_TYMED | STG_E_MEDIUMFULL
deriving DecidableEq

/-- The block handed out by `GetData`: the `DROPFILES` header fields it sets and
the characters copied after the header. -/
structure DropPayload where
  pFiles : Nat
  fWide : Bool
  files : WStr
deriving DecidableEq

/-- Windows SDK: `sizeof(DROPFILES)`. -/
def sizeof_DROPFILES : Nat := 20

/-- The method `DataObject::GetData`.  `argsOk`: both pointers are non-null; `isHDrop`:
`cfFormat == CF_HDROP`; `hasHGlobal`: `tymed & TYMED_HGLOBAL`; `memOk`:
`GlobalAlloc` and `GlobalLock` succeed. -/
def DataObject.GetData (d : DataObject) (argsOk isHDrop hasHGlobal memOk : Bool) :
    HRESULT × Option DropPayload :=
  if !argsOk then (HRESULT.E_POINTER, none)
  else if !isHDrop then (HRESULT.DV_E_FORMATETC, none)
  else if !hasHGlobal then (HRESULT.DV_E_TYMED, none)
  else
    match d.m_list with
    | none => (HRESULT.DV_E_FORMATETC, none)
    | some list =>
      if d.m_listChars < 2 then (HRESULT.DV_E_FORMATETC, none)
      else if !memOk then (HRESULT.STG_E_MEDIUMFULL, none)
      else (HRESULT.S_OK,
        some { pFiles := sizeof_DROPFILES, fWide := true, files := list.take d.m_listChars })

/-- The file list format of `CF_HDROP`, read back: the characters are split at
each NUL and the list ends at the first empty segment (the double NUL).
`cur` is the segment being read. -/
def decodeFrom : WStr → WStr → List WStr
  | [], _ => []
  | c :: rest, cur =>
    if c = NUL then (if cur = [] then [] else cur :: decodeFrom rest [])
    else decodeFrom rest (cur ++ [c])

/-- Decoding of a double-NUL-terminated list of strings. -/
def decodeDoubleNul (list : WStr) : List WStr := decodeFrom list []

/-- The first `n` rows of an array of paths, as a list. -/
def rowsOf (paths : Nat → WStr) (n : Nat) : List WStr := (List.range n).map paths

/-- The list format written out: each non-empty string followed by one NUL, in
order, then one more NUL. -/
def encodeDoubleNul (ps : List WStr) : WStr :=
  ((ps.filter (fun p => p ≠ [])).map (fun p => p ++ [NUL])).flatten ++ [NUL]

/-- Three rows, the middle one empty: `a`, the empty string, `bc`. -/
def rows3 : Nat → WStr := fun i =>
  if i = 0 then "a".toList else if i = 2 then "bc".toList else []

/-! ## The preview text -/

/-- The size `_countof(g_tipText)`: `static wchar_t g_tipText[16384];` -/
def TIP_TEXT_CCH : Nat := 16384

/-- The line break `L"\r\n"` put between lines. -/
def CRLF : WStr := [Char.ofNat 13, Char.ofNat 10]

/-- The placeholder shown for an empty registry. -/
def EMPTY_TEXT : WStr := "(空)".toList

/-- The `%d` conversion of an `int`. -/
def fmtD (n : Int) : WStr :=
  if n < 0 then Char.ofNat 45 :: Nat.toDigits 10 n.natAbs else Nat.toDigits 10 n.toNat

/-- The call `StringCchPrintfW(more, cch, L"...还有 %d 个文件", remaining)`: the contents
of `more`. -/
def StringCchPrintfW_more (cch : Nat) (remaining : Int) : WStr :=
  ("...还有 ".toList ++ fmtD remaining ++ " 个文件".toList).take (cch - 1)

/-- The string `s` picked for row `i`: `g_names[i][0] ? g_names[i] : g_paths[i]`. -/
def rowText (r : Registry) (i : Nat) : WStr :=
  if (r.g_names i).headD NUL ≠ NUL then r.g_names i else r.g_paths i

/-- The `for` loop of `BuildTipTextAndGetShownLines` over the rows still to
visit: the contents of `g_tipText` and `written`. -/
def tipLoop (r : Registry) (showNames : Int) : List Nat → WStr → Int → WStr × Int
  | [], text, written => (text, written)
  | i :: rest, text, written =>
    if written < showNames then
      let s := rowText r i
      if s.headD NUL = NUL then tipLoop r showNames rest text written
      else
        let text := if text.headD NUL ≠ NUL then StringCchCatW text TIP_TEXT_CCH CRLF else text
        let text := StringCchCatW text TIP_TEXT_CCH s
        tipLoop r showNames rest text (written + 1)
    else (text, written)

/-- The function `BuildTipTextAndGetShownLines`: the contents of `g_tipText` and the value
returned, for the registry `r` and `g_style.tipMaxLines`. -/
def BuildTipTextAndGetShownLines (r : Registry) (tipMaxLines : Int) : WStr × Int :=
  if (r.g_count : Int) ≤ 0 then (StringCchCopyW TIP_TEXT_CCH EMPTY_TEXT, 1)
  else
    let maxLines := tipMaxLines
    let maxLines := if maxLines < 1 then 1 else maxLines
    let needMoreLine : Bool := decide ((r.g_count : Int) > maxLines)
    let showNames := if needMoreLine then maxLines - 1 else maxLines
    let showNames := if showNames < 0 then 0 else showNames
    let loop := tipLoop r showNames (List.range r.g_count) [] 0
    let text := loop.1
    let written := loop.2
    let lines := written
    let out : WStr × Int :=
      if needMoreLine && decide (maxLines ≥ 1) then
        let remaining := (r.g_count : Int) - written
        let text := if text.headD NUL ≠ NUL then StringCchCatW text TIP_TEXT_CCH CRLF else text
        let more := StringCchPrintfW_more 64 remaining
        (StringCchCatW text TIP_TEXT_CCH more, lines + 1)
      else (text, lines)
    let lines := if out.2 ≤ 0 then 1 else out.2
    (out.1, lines)

/-- The name shown for row `i`: the C string of the display name, or of the full
path when the display name is empty. -/
def displayName (r : Registry) (i : Nat) : WStr := cstr (rowText r i)

/-- The names shown for rows `0 .. n - 1`. -/
def displayNames (r : Registry) (n : Nat) : List WStr := (List.range n).map (displayName r)

/-- The summary line the code writes for `n` entries not listed. -/
def moreLine (n : Int) : WStr := "...还有 ".toList ++ fmtD n ++ " 个文件".toList

/-- A registry of `n` entries, each with the path and the name `s`. -/
def regConst (s : WStr) (n : Nat) : Registry :=
  { g_paths := fun _ => s, g_names := fun _ => s, g_count := n }

/-- A registry of 100 entries whose names are 200 letters each. -/
def bigReg : Registry := regConst (List.replicate 200 (Char.ofNat 97)) 100

/-! ## The main window procedure -/

/-- The value of an `int` expression: the mathematical result reduced to 32 bits,
two's complement. -/
def wrapInt32 (v : Int) : Int := (v + 2147483648) % 4294967296 - 2147483648

/-- What a handler does to the outside, in the order of the calls. -/
inductive Effect where
  | DragAcceptFiles
  | SetTimer (ms : Int)
  | KillTimer
  | ShowWindow
  | SetWindowPos (topmost : Bool)
  | InvalidateRect
  | DestroyWindow
  | ShowAutoCloseTip (text : WStr) (shownLines : Int)
  | SetCapture
  | ReleaseCapture
  | DoDragDrop (data : Option DataObject)
  | PaintMain (count : Nat)
  | PostQuitMessage
  | DefWindowProc
deriving DecidableEq

/-- The messages `MainWndProc` tells apart, with what it reads from `wParam`,
`lParam` and the keyboard: `x`, `y` are `GET_X_LPARAM`, `GET_Y_LPARAM`;
`lbutton` is `wParam & MK_LBUTTON`; `ctrlDown` is the sampled Ctrl key. -/
inductive Msg where
  | WM_CREATE
  | WM_TIMER (isHeal : Bool) (iconicOrHidden : Bool)
  | WM_DROPFILES (ctrlDown : Bool) (drop : List WStr)
  | WM_RBUTTONDOWN (ctrlDown : Bool)
  | WM_LBUTTONDOWN (x y : Int)
  | WM_MOUSEMOVE (lbutton : Bool) (x y : Int)
  | WM_LBUTTONUP
  | WM_ERASEBKGND
  | WM_PAINT
  | WM_SYSCOMMAND (isMinimize : Bool)
  | WM_SHOWWINDOW (shown : Bool)
  | WM_DESTROY
  | other
deriving DecidableEq

/-- The globals read or written by `MainWndProc`: the registry, the press
state, and the fields of `g_style` it uses. -/
structure AppState where
  reg : Registry
  g_mouseDown : Bool
  g_mouseDownPt : Int × Int
  maxCount : Int
  healIntervalMs : Int
  topmost : Bool
  tipMaxLines : Int

/-- The function `StartDragIfHasFiles`: nothing when `g_count <= 0`, else the data object is
built from the registry and `DoDragDrop` runs.  The data is `none` if the
constructor stores past its allocation. -/
def StartDragIfHasFiles (r : Registry) (allocOk : Bool) : List Effect :=
  if (r.g_count : Int) ≤ 0 then []
  else [Effect.DoDragDrop (DataObject.new r.g_paths (r.g_count : Int) allocOk)]

/-- The value `dx * dx + dy * dy` computed by the `WM_MOUSEMOVE` case for the
button-down point `pt` and the mouse position `x`, `y`, in `int` arithmetic. -/
def movedSq (pt : Int × Int) (x y : Int) : Int :=
  let dx := wrapInt32 (x - pt.1)
  let dy := wrapInt32 (y - pt.2)
  wrapInt32 (wrapInt32 (dx * dx) + wrapInt32 (dy * dy))

/-- The function `MainWndProc`: the new state and the effects, `none` for a store outside
the arrays.  `allocOk` tells whether `CoTaskMemAlloc` succeeds. -/
def MainWndProc (allocOk : Bool) (s : AppState) : Msg → Option (AppState × List Effect)
  | Msg.WM_CREATE =>
    some (s, Effect.DragAcceptFiles ::
      (if s.healIntervalMs > 0 then [Effect.SetTimer s.healIntervalMs] else []))
  | Msg.WM_TIMER isHeal iconicOrHidden =>
    if isHeal then
      some (s, (if iconicOrHidden then [Effect.ShowWindow] else []) ++
        [Effect.SetWindowPos s.topmost])
    else some (s, [Effect.DefWindowProc])
  | Msg.WM_DROPFILES ctrlDown drop =>
    match dropFiles s.maxCount ctrlDown drop s.reg with
    | none => none
    | some r => some ({ s with reg := r }, [Effect.InvalidateRect])
  | Msg.WM_RBUTTONDOWN ctrlDown =>
    if ctrlDown then some (s, [Effect.DestroyWindow])
    else
      let tip := BuildTipTextAndGetShownLines s.reg s.tipMaxLines
      some (s, [Effect.ShowAutoCloseTip tip.1 tip.2])
  | Msg.WM_LBUTTONDOWN x y =>
    some ({ s with g_mouseDown := true, g_mouseDownPt := (x, y) }, [Effect.SetCapture])
  | Msg.WM_MOUSEMOVE lbutton x y =>
    if s.g_mouseDown && lbutton then
      if movedSq s.g_mouseDownPt x y > 25 then
        some ({ s with g_mouseDown := false },
          Effect.ReleaseCapture :: StartDragIfHasFiles s.reg allocOk)
      else some (s, [])
    else some (s, [])
  | Msg.WM_LBUTTONUP => some ({ s with g_mouseDown := false }, [Effect.ReleaseCapture])
  | Msg.WM_ERASEBKGND => some (s, [])
  | Msg.WM_PAINT => some (s, [Effect.PaintMain s.reg.g_count])
  | Msg.WM_SYSCOMMAND isMinimize =>
    if isMinimize then some (s, [Effect.ShowWindow]) else some (s, [Effect.DefWindowProc])
  | Msg.WM_SHOWWINDOW shown =>
    if !shown then some (s, [Effect.ShowWindow, Effect.SetWindowPos s.topmost])
    else some (s, [Effect.DefWindowProc])
  | Msg.WM_DESTROY =>
    some (s, (if s.healIntervalMs > 0 then [Effect.KillTimer] else []) ++
      [Effect.PostQuitMessage])
  | Msg.other => some (s, [Effect.DefWindowProc])

/-- The messages of a list handled one after the other: the final state and all
effects in order. -/
def runMsgs (allocOk : Bool) : List Msg → AppState → Option (AppState × List Effect)
  | [], s => some (s, [])
  | m :: rest, s =>
    match MainWndProc allocOk s m with
    | none => none
    | some (s1, e1) =>
      match runMsgs allocOk rest s1 with
      | none => none
      | some (s2, e2) => some (s2, e1 ++ e2)

/-- Whether an effect is the start of a drag operation. -/
def Effect.isDrag : Effect → Bool
  | Effect.DoDragDrop _ => true
  | _ => false

/-- The number of drag operations started among some effects. -/
def drags (es : List Effect) : Nat := (es.filter Effect.isDrag).length

/-- The mouse messages of the drag-out gesture. -/
def Msg.isMouse : Msg → Bool
  | Msg.WM_LBUTTONDOWN _ _ => true
  | Msg.WM_MOUSEMOVE _ _ _ => true
  | Msg.WM_LBUTTONUP => true
  | _ => false

/-- The button-down message. -/
def Msg.isDown : Msg → Bool
  | Msg.WM_LBUTTONDOWN _ _ => true
  | _ => false

/-- An application state around a registry, with the default style values. -/
def appOf (r : Registry) : AppState :=
  { reg := r, g_mouseDown := false, g_mouseDownPt := (0, 0), maxCount := 100,
    healIntervalMs := 1000, topmost := true, tipMaxLines := 30 }

/-- The row the loop of `WM_DROPFILES` has reached when it has visited the
dropped paths `pre`: the value of `g_count` at the start of the loop plus the
number of paths of `pre` for which the query returned `n > 0`. -/
def slotAfter (ctrlDown : Bool) (r : Registry) (pre : List WStr) : Nat :=
  (if ctrlDown then r.g_count else 0) +
    (pre.filter (fun q => decide ((DragQueryFileW q MAX_PATH).1 > 0))).length

/-- The file drop message. -/
def Msg.isDrop : Msg → Bool
  | Msg.WM_DROPFILES _ _ => true
  | _ => false

/-- The value `chars - 1` the counting loop of the constructor stands for: the
sum of `len + 1` over the rows in `rows` whose length is not 0. -/
def sumLenPlusOne (paths : Nat → WStr) (rows : List Nat) : Nat :=
  (((rows.map (fun i => wcslen (paths i))).filter (fun len => len ≠ 0)).map
    (fun len => len + 1)).sum

/-! ## The preview window: height and position -/

/-- The function `LoadIniStyle`, the lines on `min_h`. -/
def LoadIniStyle_tipMinH (ini : Int) : Int :=
  let tipMinH := ini
  if tipMinH < 60 then 60 else tipMinH

/-- The function `LoadIniStyle`, the lines on `max_lines`. -/
def LoadIniStyle_tipMaxLines (ini : Int) : Int :=
  let tipMaxLines := ini
  let tipMaxLines := if tipMaxLines < 1 then 1 else tipMaxLines
  if tipMaxLines > 200 then 200 else tipMaxLines

/-- The function `LoadIniStyle`, the lines on `max_h`. -/
def LoadIniStyle_tipMaxH (ini : Int) : Int :=
  let tipMaxH := ini
  if tipMaxH < 0 then 0 else tipMaxH

/-- The function `LoadIniStyle`, the lines on `margin`. -/
def LoadIniStyle_tipMargin (ini : Int) : Int :=
  let tipMargin := ini
  if tipMargin < 0 then 0 else tipMargin

/-- The sum `padTop + padBottom + border + lines * lineH` of `ShowAutoCloseTip`,
in `int` arithmetic, with `padTop = padBottom = 10` and `border = 2`. -/
def paddedHeight (lines lineH : Int) : Int :=
  let padTop : Int := 10
  let padBottom : Int := 10
  let border : Int := 2
  wrapInt32 (wrapInt32 (wrapInt32 (padTop + padBottom) + border) + wrapInt32 (lines * lineH))

/-- The value of `maxH` in `ShowAutoCloseTip`: `g_style.tipMaxH`, or when that is
0 the height of `tipMaxLines` lines. -/
def ShowAutoCloseTip_maxH (lineH tipMaxH tipMaxLines : Int) : Int :=
  let maxH := tipMaxH
  if maxH = 0 then
    let maxLines := tipMaxLines
    let maxLines := if maxLines < 1 then 1 else maxLines
    paddedHeight maxLines lineH
  else maxH

/-- The height `h` of the preview window computed by `ShowAutoCloseTip` from the
shown lines, the estimated line height and the style values. -/
def ShowAutoCloseTip_h (shownLines lineH tipMinH tipMaxH tipMaxLines : Int) : Int :=
  let desiredH := paddedHeight shownLines lineH
  let maxH := ShowAutoCloseTip_maxH lineH tipMaxH tipMaxLines
  let h := desiredH
  let h := if h < tipMinH then tipMinH else h
  if h > maxH then maxH else h

theorem cstr_eq_self {s : WStr} (h : NUL ∉ s) : cstr s = s := by
  unfold cstr
  rw [List.takeWhile_eq_self_iff]
  intro c hc
  have : c ≠ NUL := fun e => h (e ▸ hc)
  simpa using this

theorem nul_not_mem_cstr (s : WStr) : NUL ∉ cstr s := by
  intro h
  have := List.mem_takeWhile_imp h
  simp at this

theorem headD_nul_iff (s : WStr) : s.headD NUL = NUL ↔ cstr s = [] := by
  cases s with
  | nil => simp [cstr]
  | cons c t =>
    by_cases h : c = NUL <;> simp [cstr, List.takeWhile_cons, h]

theorem wcslen_eq_zero_iff (s : WStr) : wcslen s = 0 ↔ cstr s = [] := by
  simp [wcslen]

theorem take_wcslen (s : WStr) : s.take (wcslen s) = cstr s := by
  have hp : cstr s <+: s := List.takeWhile_prefix _
  exact (List.prefix_iff_eq_take.mp hp).symm

/-- The two skip tests of the constructor agree on every row. -/
theorem skip_tests_agree (s : WStr) : wcslen s = 0 ↔ s.headD NUL = NUL := by
  rw [wcslen_eq_zero_iff, headD_nul_iff]

theorem entries_length (r : Registry) : (entries r).length = r.g_count := by
  simp [entries]

theorem storedPaths_eq (r : Registry) : storedPaths r = (entries r).map Prod.fst := by
  simp [storedPaths, entries, Function.comp_def]

theorem storedNames_eq (r : Registry) : storedNames r = (entries r).map Prod.snd := by
  simp [storedNames, entries, Function.comp_def]

/-- The loop stores, after the entries already there, the leading accepted
paths up to the capacity, and never writes outside the arrays. -/
theorem dropLoop_spec (M : Int) (hM : M ≤ (HARD_MAX : Int)) :
    ∀ (drop : List WStr) (r : Registry), (r.g_count : Int) ≤ M →
      ∃ r', dropLoop M drop r = some r' ∧
        entries r' = entries r ++ (drop.filterMap accept).take (M.toNat - r.g_count) := by
  intro drop
  induction drop with
  | nil => intro r _; exact ⟨r, rfl, by simp⟩
  | cons p rest ih =>
    intro r hr
    by_cases hlt : (r.g_count : Int) < M
    · by_cases hq : (DragQueryFileW p MAX_PATH).1 > 0
      · have hrow : r.g_count < HARD_MAX := by omega
        obtain ⟨r', h1, h2⟩ := ih
          { g_paths := fun j => if j = r.g_count then
              StringCchCopyW MAX_PATH (DragQueryFileW p MAX_PATH).2 else r.g_paths j,
            g_names := fun j => if j = r.g_count then
              StringCchCopyW MAX_PATH (baseOrPath (DragQueryFileW p MAX_PATH).2) else r.g_names j,
            g_count := r.g_count + 1 } (by simp; omega)
        refine ⟨r', ?_, ?_⟩
        · simp only [dropLoop, hlt, hq, writeRow, hrow, if_true]
          exact h1
        · rw [h2]
          have hacc : accept p = some (StringCchCopyW MAX_PATH (DragQueryFileW p MAX_PATH).2,
              StringCchCopyW MAX_PATH (baseOrPath (DragQueryFileW p MAX_PATH).2)) := by
            simp only [accept, hq, if_true]
          have hsub : M.toNat - r.g_count = (M.toNat - (r.g_count + 1)) + 1 := by omega
          rw [List.filterMap_cons, hacc, hsub, List.take_succ_cons]
          simp only [entries, List.range_succ, List.map_append, List.map_cons, List.map_nil,
            if_true, List.append_assoc, List.singleton_append]
          congr 1
          apply List.map_congr_left
          intro j hj
          have : j ≠ r.g_count := Nat.ne_of_lt (List.mem_range.mp hj)
          simp [this]
      · obtain ⟨r', h1, h2⟩ := ih r hr
        refine ⟨r', ?_, ?_⟩
        · simp only [dropLoop, hlt, hq, if_true, if_false]
          exact h1
        · have hacc : accept p = none := by simp only [accept, hq, if_false]
          rw [h2, List.filterMap_cons, hacc]
    · refine ⟨r, ?_, ?_⟩
      · simp only [dropLoop, hlt, if_false]
      · have : M.toNat - r.g_count = 0 := by omega
        simp [this]

theorem accept_wellFormed {p : WStr} (h : WellFormedPath p) :
    accept p = some (p, StringCchCopyW MAX_PATH (baseOrPath p)) := by
  obtain ⟨hne, hnul, hlen⟩ := h
  have hc : cstr p = p := cstr_eq_self hnul
  have ht : List.take (MAX_PATH - 1) p = p := List.take_of_length_le (by omega)
  have hpos : 0 < p.length := List.length_pos.mpr hne
  simp [accept, DragQueryFileW, StringCchCopyW, hc, ht, hpos]

theorem filterMap_accept_wellFormed :
    ∀ (drop : List WStr), (∀ p ∈ drop, WellFormedPath p) →
      drop.filterMap accept = drop.map (fun p => (p, StringCchCopyW MAX_PATH (baseOrPath p)))
  | [], _ => rfl
  | p :: rest, h => by
    rw [List.filterMap_cons, accept_wellFormed (h p (List.mem_cons_self _ _)), List.map_cons,
      filterMap_accept_wellFormed rest (fun q hq => h q (List.mem_cons_of_mem _ hq))]

theorem LoadIniStyle_maxCount_range (ini : Int) :
    1 ≤ LoadIniStyle_maxCount ini ∧ LoadIniStyle_maxCount ini ≤ (HARD_MAX : Int) := by
  simp only [LoadIniStyle_maxCount, HARD_MAX]
  constructor <;> split_ifs <;> omega

/-- What a drop does to the entries, for any capacity within the arrays. -/
theorem dropFiles_spec (M : Int) (hM : M ≤ (HARD_MAX : Int)) (ctrlDown : Bool)
    (drop : List WStr) (r : Registry) (hr : ctrlDown = true → (r.g_count : Int) ≤ M)
    (h0 : 0 ≤ M) :
    ∃ r', dropFiles M ctrlDown drop r = some r' ∧
      entries r' = (if ctrlDown then entries r else []) ++
        (drop.filterMap accept).take (M.toNat - (if ctrlDown then r.g_count else 0)) := by
  cases ctrlDown with
  | true =>
    obtain ⟨r', h1, h2⟩ := dropLoop_spec M hM drop r (hr rfl)
    exact ⟨r', by simpa [dropFiles] using h1, by simpa using h2⟩
  | false =>
    obtain ⟨r', h1, h2⟩ := dropLoop_spec M hM drop { r with g_count := 0 } (by simpa using h0)
    exact ⟨r', by simpa [dropFiles] using h1, by simpa [entries] using h2⟩

/-! ## Drag-in: overwrite, append, empty drop, capacity -/

/-- C1, as stated, fails: a dropped path for which the query returns 0 (the empty
path) is skipped by the guard `n > 0`, so two dropped paths leave one entry, and a
path of `MAX_PATH` characters is stored cut to `MAX_PATH - 1` characters. -/
theorem drop_overwrite_counterexample :
    ((dropFiles (LoadIniStyle_maxCount 100) false [[], "a".toList] Registry.init).map storedPaths
        = some ["a".toList]
      ∧ ["a".toList] ≠ List.take (min 2 (LoadIniStyle_maxCount 100).toNat) [[], "a".toList])
    ∧ ((dropFiles (LoadIniStyle_maxCount 100) false [longPath] Registry.init).map storedPaths
        = some [List.take 259 longPath]
      ∧ [List.take 259 longPath] ≠ List.take (min 1 (LoadIniStyle_maxCount 100).toNat) [longPath]) := by
  refine ⟨by decide, ?_⟩
  set_option maxRecDepth 20000 in decide

/-- C1 (amended): for every prior registry and every list of dropped paths that are
non-empty, NUL-free and shorter than `MAX_PATH`, a drop without Ctrl leaves exactly
`min n maxCount` entries, the first `min n maxCount` given paths in the given order. -/
theorem drop_overwrite_stores_prefix (ini : Int) (r : Registry) (drop : List WStr)
    (hwf : ∀ p ∈ drop, WellFormedPath p) :
    ∃ r', dropFiles (LoadIniStyle_maxCount ini) false drop r = some r' ∧
      r'.g_count = min drop.length (LoadIniStyle_maxCount ini).toNat ∧
      storedPaths r' = drop.take (min drop.length (LoadIniStyle_maxCount ini).toNat) := by
  obtain ⟨h1, h2⟩ := LoadIniStyle_maxCount_range ini
  obtain ⟨r', hr, he⟩ := dropFiles_spec _ h2 false drop r (by simp) (by omega)
  rw [filterMap_accept_wellFormed drop hwf] at he
  simp only [Bool.false_eq_true, if_false, List.nil_append, Nat.sub_zero] at he
  refine ⟨r', hr, ?_, ?_⟩
  · rw [← entries_length, he, List.length_take, List.length_map, Nat.min_comm]
  · rw [storedPaths_eq, he, ← List.map_take, List.map_map]
    simp [Function.comp_def, List.take_take, Nat.min_comm]

/-- Witness for C1 (amended): three paths dropped with `max_count = 2`. -/
theorem drop_overwrite_stores_prefix_witness :
    (∀ p ∈ ["a".toList, "b".toList, "a".toList], WellFormedPath p) ∧
    ∃ r', dropFiles (LoadIniStyle_maxCount 2) false
        ["a".toList, "b".toList, "a".toList] regX = some r' ∧
      r'.g_count = min 3 (LoadIniStyle_maxCount 2).toNat ∧
      storedPaths r' = List.take (min 3 (LoadIniStyle_maxCount 2).toNat)
        ["a".toList, "b".toList, "a".toList] :=
  ⟨by decide,
    drop_overwrite_stores_prefix 2 regX ["a".toList, "b".toList, "a".toList]
      (by decide)⟩

/-- C2, as stated, fails: with Ctrl held too, a dropped path for which the query
returns 0 is skipped, so two paths dropped on a registry of length 1 give length 2,
not `min (1 + 2) maxCount`, and a path of `MAX_PATH` characters is stored cut. -/
theorem drop_append_counterexample :
    ((dropFiles (LoadIniStyle_maxCount 100) true [[], "a".toList] regX).map storedPaths
        = some ["x".toList, "a".toList]
      ∧ (dropFiles (LoadIniStyle_maxCount 100) true [[], "a".toList] regX).map Registry.g_count
        ≠ some (min (regX.g_count + 2) (LoadIniStyle_maxCount 100).toNat))
    ∧ ((dropFiles (LoadIniStyle_maxCount 100) true [longPath] regX).map storedPaths
        = some ["x".toList, List.take 259 longPath]
      ∧ ["x".toList, List.take 259 longPath] ≠ storedPaths regX ++
          List.take (min 1 ((LoadIniStyle_maxCount 100).toNat - regX.g_count)) [longPath]) := by
  refine ⟨by decide, ?_⟩
  set_option maxRecDepth 20000 in decide

/-- C2 (amended): for every registry of length `L ≤ maxCount = M` and every list of
`n` dropped paths that are non-empty, NUL-free and shorter than `MAX_PATH`, a drop
with Ctrl held yields length `min (L + n) M`; the first `L` entries are the old
ones, unchanged, followed by the first `min n (M - L)` given paths in order. -/
theorem drop_append_keeps_front (ini : Int) (r : Registry) (drop : List WStr)
    (hL : (r.g_count : Int) ≤ LoadIniStyle_maxCount ini)
    (hwf : ∀ p ∈ drop, WellFormedPath p) :
    ∃ r', dropFiles (LoadIniStyle_maxCount ini) true drop r = some r' ∧
      r'.g_count = min (r.g_count + drop.length) (LoadIniStyle_maxCount ini).toNat ∧
      (entries r').take r.g_count = entries r ∧
      storedPaths r' = storedPaths r ++
        drop.take (min drop.length ((LoadIniStyle_maxCount ini).toNat - r.g_count)) := by
  obtain ⟨h1, h2⟩ := LoadIniStyle_maxCount_range ini
  obtain ⟨r', hr, he⟩ := dropFiles_spec _ h2 true drop r (fun _ => hL) (by omega)
  rw [filterMap_accept_wellFormed drop hwf] at he
  simp only [if_true] at he
  refine ⟨r', hr, ?_, ?_, ?_⟩
  · rw [← entries_length, he, List.length_append, List.length_take, List.length_map,
      entries_length]
    omega
  · rw [he, List.take_left' (entries_length r)]
  · rw [storedPaths_eq, he, List.map_append, ← storedPaths_eq, ← List.map_take, List.map_map]
    simp [Function.comp_def, List.take_take, Nat.min_comm]

/-- Witness for C2 (amended): two paths appended to a registry of length 1 with
`max_count = 2`. -/
theorem drop_append_keeps_front_witness :
    ((regX.g_count : Int) ≤ LoadIniStyle_maxCount 2 ∧
      ∀ p ∈ ["a".toList, "b".toList], WellFormedPath p) ∧
    ∃ r', dropFiles (LoadIniStyle_maxCount 2) true ["a".toList, "b".toList] regX
        = some r' ∧
      r'.g_count = min (regX.g_count + 2) (LoadIniStyle_maxCount 2).toNat ∧
      (entries r').take regX.g_count = entries regX ∧
      storedPaths r' = storedPaths regX ++ List.take
        (min 2 ((LoadIniStyle_maxCount 2).toNat - regX.g_count))
        ["a".toList, "b".toList] :=
  ⟨⟨by decide, by decide⟩,
    drop_append_keeps_front 2 regX ["a".toList, "b".toList] (by decide) (by decide)⟩

/-- C3: for every prior registry and every capacity, a drop of zero paths without
Ctrl yields the empty registry (count 0, no entries); with Ctrl held the same
empty drop leaves the registry as it was. -/
theorem empty_drop_clears_or_keeps (maxCount : Int) (r : Registry) :
    (dropFiles maxCount false [] r).map Registry.g_count = some 0 ∧
    (dropFiles maxCount false [] r).map entries = some [] ∧
    dropFiles maxCount true [] r = some r := by
  refine ⟨rfl, rfl, rfl⟩

theorem dropFiles_count_le (M : Int) (hM : M ≤ (HARD_MAX : Int)) (h0 : 0 ≤ M) (ctrlDown : Bool)
    (drop : List WStr) (r : Registry) (hr : (r.g_count : Int) ≤ M) :
    ∃ r', dropFiles M ctrlDown drop r = some r' ∧ (r'.g_count : Int) ≤ M := by
  obtain ⟨r', h1, he⟩ := dropFiles_spec M hM ctrlDown drop r (fun _ => hr) h0
  refine ⟨r', h1, ?_⟩
  have hlen := congrArg List.length he
  rw [entries_length, List.length_append, List.length_take] at hlen
  cases ctrlDown with
  | true => simp only [if_true, entries_length] at hlen; omega
  | false => simp at hlen; omega

theorem runDrops_count_le (M : Int) (hM : M ≤ (HARD_MAX : Int)) (h0 : 0 ≤ M) :
    ∀ (drops : List (Bool × List WStr)) (r : Registry), (r.g_count : Int) ≤ M →
      ∃ r', runDrops M drops r = some r' ∧ (r'.g_count : Int) ≤ M
  | [], r, hr => ⟨r, rfl, hr⟩
  | d :: rest, r, hr => by
    obtain ⟨r1, h1, hle⟩ := dropFiles_count_le M hM h0 d.1 d.2 r hr
    obtain ⟨r2, h2, hle2⟩ := runDrops_count_le M hM h0 rest r1 hle
    exact ⟨r2, by simp only [runDrops, h1]; exact h2, hle2⟩

/-- C4: for every integer read as `max_count` the loaded `maxCount` lies in
`1 .. HARD_MAX = 100`; and from the empty registry, every sequence of drops (any
paths, any Ctrl states) runs without a store outside the 100-row arrays and ends
with `0 ≤ g_count ≤ maxCount ≤ HARD_MAX`. -/
theorem capacity_invariant (ini : Int) (drops : List (Bool × List WStr)) :
    1 ≤ LoadIniStyle_maxCount ini ∧ LoadIniStyle_maxCount ini ≤ (HARD_MAX : Int) ∧
    HARD_MAX = 100 ∧
    ∃ r', runDrops (LoadIniStyle_maxCount ini) drops Registry.init = some r' ∧
      0 ≤ (r'.g_count : Int) ∧ (r'.g_count : Int) ≤ LoadIniStyle_maxCount ini := by
  obtain ⟨h1, h2⟩ := LoadIniStyle_maxCount_range ini
  obtain ⟨r', hr, hle⟩ := runDrops_count_le _ h2 (by omega) drops Registry.init
    (by simp [Registry.init]; omega)
  exact ⟨h1, h2, rfl, r', hr, by omega, hle⟩

/-- A path accepted by the loop is stored non-empty and without NUL. -/
theorem accept_fst {p : WStr} {e : WStr × WStr} (h : accept p = some e) :
    e.1 ≠ [] ∧ NUL ∉ e.1 := by
  simp only [accept, DragQueryFileW] at h
  split_ifs at h with hq
  have hn : NUL ∉ List.take (MAX_PATH - 1) (cstr p) :=
    fun hm => nul_not_mem_cstr p (List.mem_of_mem_take hm)
  have he : e.1 = List.take (MAX_PATH - 1) (cstr p) := by
    rw [← Option.some.inj h]
    simp only [StringCchCopyW, cstr_eq_self hn, List.take_take, Nat.min_self]
  rw [he]
  exact ⟨List.length_pos.mp hq, hn⟩

/-- The name shown for a row whose stored path is non-empty and without NUL is
not empty. -/
theorem displayName_ne_nil_of_path (r : Registry) (i : Nat) (h1 : r.g_paths i ≠ [])
    (h2 : NUL ∉ r.g_paths i) : displayName r i ≠ [] := by
  unfold displayName rowText
  split_ifs with hc
  · exact fun e => hc ((headD_nul_iff _).mpr e)
  · rw [cstr_eq_self h2]; exact h1

/-- Every registry reached from the empty one by drops holds at most `maxCount`
entries, each with a non-empty path without NUL, hence with a name to show. -/
theorem runDrops_rows (M : Int) (hM : M ≤ (HARD_MAX : Int)) (h0 : 0 ≤ M) :
    ∀ (drops : List (Bool × List WStr)) (r r' : Registry),
      (r.g_count : Int) ≤ M → (∀ e ∈ entries r, e.1 ≠ [] ∧ NUL ∉ e.1) →
      runDrops M drops r = some r' →
      (r'.g_count : Int) ≤ M ∧ ∀ i, i < r'.g_count →
        r'.g_paths i ≠ [] ∧ NUL ∉ r'.g_paths i ∧ displayName r' i ≠ []
  | [], r, r', hle, hinv, h => by
    simp only [runDrops, Option.some.injEq] at h
    subst h
    refine ⟨hle, fun i hi => ?_⟩
    have hmem : (r.g_paths i, r.g_names i) ∈ entries r :=
      List.mem_map.mpr ⟨i, List.mem_range.mpr hi, rfl⟩
    have := hinv _ hmem
    exact ⟨this.1, this.2, displayName_ne_nil_of_path r i this.1 this.2⟩
  | d :: rest, r, r', hle, hinv, h => by
    obtain ⟨r1, h1, he⟩ := dropFiles_spec M hM d.1 d.2 r (fun _ => hle) h0
    obtain ⟨_, h1', hle1⟩ := dropFiles_count_le M hM h0 d.1 d.2 r hle
    rw [h1] at h1'
    have hr1 : (r1.g_count : Int) ≤ M := by rw [Option.some.inj h1']; exact hle1
    simp only [runDrops, h1] at h
    refine runDrops_rows M hM h0 rest r1 r' hr1 ?_ h
    intro e hmem
    rw [he] at hmem
    rcases List.mem_append.mp hmem with hm | hm
    · split_ifs at hm
      · exact hinv e hm
      · simp at hm
    · obtain ⟨p, _, hp⟩ := List.mem_filterMap.mp (List.mem_of_mem_take hm)
      exact accept_fst hp

/-! ## Drag-out: the exported list -/

theorem encodeDoubleNul_nil : encodeDoubleNul [] = [NUL] := rfl

theorem encodeDoubleNul_cons_nil (ps : List WStr) :
    encodeDoubleNul ([] :: ps) = encodeDoubleNul ps := by
  simp [encodeDoubleNul]

theorem encodeDoubleNul_cons {p : WStr} (hp : p ≠ []) (ps : List WStr) :
    encodeDoubleNul (p :: ps) = p ++ NUL :: encodeDoubleNul ps := by
  simp [encodeDoubleNul, hp]

theorem encodeDoubleNul_length_pos (ps : List WStr) : 1 ≤ (encodeDoubleNul ps).length := by
  simp [encodeDoubleNul]

theorem countLoop_eq (paths : Nat → WStr) :
    ∀ (rows : List Nat) (chars : Nat),
      DataObject.countLoop paths rows chars + 1
        = chars + (encodeDoubleNul (rows.map (fun i => cstr (paths i)))).length
  | [], chars => by simp [DataObject.countLoop, encodeDoubleNul_nil]
  | i :: rest, chars => by
    by_cases h : cstr (paths i) = []
    · have h0 : wcslen (paths i) = 0 := (wcslen_eq_zero_iff _).mpr h
      simp only [DataObject.countLoop, h0, if_true, List.map_cons, h, encodeDoubleNul_cons_nil]
      exact countLoop_eq paths rest chars
    · have h0 : ¬ wcslen (paths i) = 0 := fun e => h ((wcslen_eq_zero_iff _).mp e)
      simp only [DataObject.countLoop, h0, if_false, List.map_cons, encodeDoubleNul_cons h,
        List.length_append, List.length_cons]
      rw [countLoop_eq paths rest (chars + (wcslen (paths i) + 1))]
      simp only [wcslen]
      omega

theorem copyLoop_eq (paths : Nat → WStr) (chars : Nat) :
    ∀ (rows : List Nat) (written : WStr),
      written.length + (encodeDoubleNul (rows.map (fun i => cstr (paths i)))).length ≤ chars →
      ∃ w, DataObject.copyLoop paths chars rows written = some w ∧
        w ++ [NUL] = written ++ encodeDoubleNul (rows.map (fun i => cstr (paths i)))
  | [], written, _ => ⟨written, rfl, by simp [encodeDoubleNul_nil]⟩
  | i :: rest, written, hle => by
    by_cases h : cstr (paths i) = []
    · have h0 : (paths i).headD NUL = NUL := (headD_nul_iff _).mpr h
      simp only [List.map_cons, h, encodeDoubleNul_cons_nil] at hle ⊢
      obtain ⟨w, hw, he⟩ := copyLoop_eq paths chars rest written hle
      exact ⟨w, by simp only [DataObject.copyLoop, h0, if_true]; exact hw, he⟩
    · have h0 : ¬ (paths i).headD NUL = NUL := fun e => h ((headD_nul_iff _).mp e)
      simp only [List.map_cons, encodeDoubleNul_cons h, List.length_append,
        List.length_cons] at hle ⊢
      have hpos := encodeDoubleNul_length_pos (rest.map (fun i => cstr (paths i)))
      have hfit : written.length + wcslen (paths i) + 1 ≤ chars := by
        simp only [wcslen]; omega
      obtain ⟨w, hw, he⟩ := copyLoop_eq paths chars rest
        (written ++ (paths i).take (wcslen (paths i)) ++ [NUL]) (by
          simp only [take_wcslen, List.length_append, List.length_cons, List.length_nil]
          omega)
      refine ⟨w, ?_, ?_⟩
      · simp only [DataObject.copyLoop, h0, if_false, hfit, if_true]; exact hw
      · rw [he, take_wcslen]; simp

/-- The constructor, for any rows: the list written is the encoding of the C
strings of the rows, `m_listChars` is its length, and no store leaves the
allocation of `max 2 m_listChars` characters. -/
theorem DataObject_new_eq (paths : Nat → WStr) (count : Int) (hc : 1 ≤ count) :
    DataObject.new paths count true = some
      { m_list := some (encodeDoubleNul (rowsOf (fun i => cstr (paths i)) count.toNat)),
        m_listChars := (encodeDoubleNul (rowsOf (fun i => cstr (paths i)) count.toNat)).length,
        allocated := max 2 (encodeDoubleNul (rowsOf (fun i => cstr (paths i)) count.toNat)).length } := by
  have hcnt := countLoop_eq paths (List.range count.toNat) 1
  have hpos := encodeDoubleNul_length_pos ((List.range count.toNat).map (fun i => cstr (paths i)))
  have hchars : DataObject.countLoop paths (List.range count.toNat) 1
      = (encodeDoubleNul ((List.range count.toNat).map (fun i => cstr (paths i)))).length := by
    omega
  obtain ⟨w, hw, he⟩ := copyLoop_eq paths
    (if DataObject.countLoop paths (List.range count.toNat) 1 < 2 then 2
      else DataObject.countLoop paths (List.range count.toNat) 1)
    (List.range count.toNat) [] (by
      rw [hchars]; simp only [List.length_nil]; split_ifs <;> omega)
  have hlen : w.length + 1
      = (encodeDoubleNul ((List.range count.toNat).map (fun i => cstr (paths i)))).length := by
    have := congrArg List.length he
    simpa using this
  have hnot : ¬ count < 1 := by omega
  have hfin : w.length + 1 ≤ (if DataObject.countLoop paths (List.range count.toNat) 1 < 2 then 2
      else DataObject.countLoop paths (List.range count.toNat) 1) := by
    rw [hchars]; split_ifs <;> omega
  simp only [DataObject.new, hnot, if_false, Bool.not_true, Bool.false_eq_true, hw, hfin, if_true,
    rowsOf]
  rw [he, hlen, hchars]
  simp only [List.nil_append, Option.some.injEq, DataObject.mk.injEq, true_and]
  split_ifs <;> omega

theorem decodeFrom_segment (rest : WStr) :
    ∀ (p cur : WStr), NUL ∉ p →
      decodeFrom (p ++ NUL :: rest) cur
        = if cur ++ p = [] then [] else (cur ++ p) :: decodeFrom rest []
  | [], cur, _ => by simp [decodeFrom]
  | c :: p, cur, h => by
    have hc : c ≠ NUL := fun e => h (by simp [e])
    have hp : NUL ∉ p := fun e => h (List.mem_cons_of_mem _ e)
    have ih := decodeFrom_segment rest p (cur ++ [c]) hp
    rw [List.cons_append, decodeFrom, if_neg hc, ih]
    simp

theorem decode_encode :
    ∀ (ps : List WStr), (∀ p ∈ ps, NUL ∉ p) →
      decodeDoubleNul (encodeDoubleNul ps) = ps.filter (fun p => p ≠ [])
  | [], _ => by simp [decodeDoubleNul, encodeDoubleNul_nil, decodeFrom]
  | p :: ps, h => by
    have ih := decode_encode ps (fun q hq => h q (List.mem_cons_of_mem _ hq))
    by_cases hp : p = []
    · subst hp
      rw [encodeDoubleNul_cons_nil, ih]; simp
    · rw [encodeDoubleNul_cons hp, decodeDoubleNul,
        decodeFrom_segment _ p [] (h p (List.mem_cons_self _ _))]
      simp only [List.nil_append, hp, if_false]
      rw [← decodeDoubleNul, ih]
      simp [hp]

theorem rowsOf_cstr (paths : Nat → WStr) (n : Nat) (hnul : ∀ i, i < n → NUL ∉ paths i) :
    rowsOf (fun i => cstr (paths i)) n = rowsOf paths n := by
  apply List.map_congr_left
  intro i hi
  exact cstr_eq_self (hnul i (List.mem_range.mp hi))

theorem encodeDoubleNul_length_ge_two {ps : List WStr} (h : ∃ p ∈ ps, p ≠ []) :
    2 ≤ (encodeDoubleNul ps).length := by
  induction ps with
  | nil => simp at h
  | cons q qs ih =>
    by_cases hq : q = []
    · subst hq
      rw [encodeDoubleNul_cons_nil]
      apply ih
      obtain ⟨p, hp, hne⟩ := h
      rcases List.mem_cons.mp hp with e | e
      · exact absurd e hne
      · exact ⟨p, e, hne⟩
    · rw [encodeDoubleNul_cons hq]
      have := encodeDoubleNul_length_pos qs
      simp only [List.length_append, List.length_cons]
      omega

/-- C5: for `count ≥ 1` rows without NUL (and a successful allocation) the list
built by the constructor is each non-empty path followed by one NUL, in order,
then one more NUL; read back as a double-NUL-terminated list it is exactly the
non-empty paths in their order; and when some path is non-empty `GetData` hands
out that list after the `DROPFILES` header. -/
theorem payload_round_trip (paths : Nat → WStr) (count : Int) (hc : 1 ≤ count)
    (hnul : ∀ i, i < count.toNat → NUL ∉ paths i) :
    (DataObject.new paths count true).map DataObject.m_list
        = some (some (encodeDoubleNul (rowsOf paths count.toNat))) ∧
    decodeDoubleNul (encodeDoubleNul (rowsOf paths count.toNat))
        = (rowsOf paths count.toNat).filter (fun p => p ≠ []) ∧
    ((∃ p ∈ rowsOf paths count.toNat, p ≠ []) →
      (DataObject.new paths count true).map (fun d => d.GetData true true true true)
        = some (HRESULT.S_OK, some (DropPayload.mk sizeof_DROPFILES true
            (encodeDoubleNul (rowsOf paths count.toNat))))) := by
  have hnew := DataObject_new_eq paths count hc
  rw [rowsOf_cstr paths count.toNat hnul] at hnew
  refine ⟨by rw [hnew]; rfl, ?_, ?_⟩
  · apply decode_encode
    intro p hp
    obtain ⟨i, hi, rfl⟩ := List.mem_map.mp hp
    exact hnul i (List.mem_range.mp hi)
  · intro hex
    have h2 := encodeDoubleNul_length_ge_two hex
    have hlt : ¬ (encodeDoubleNul (rowsOf paths count.toNat)).length < 2 := by omega
    rw [hnew]
    simp [DataObject.GetData, hlt]

/-- Witness for C5: the rows `a`, empty, `bc`. -/
theorem payload_round_trip_witness :
    ((1 : Int) ≤ 3 ∧ ∀ i, i < (3 : Int).toNat → NUL ∉ rows3 i) ∧
    (DataObject.new rows3 3 true).map DataObject.m_list
        = some (some (encodeDoubleNul (rowsOf rows3 (3 : Int).toNat))) ∧
    decodeDoubleNul (encodeDoubleNul (rowsOf rows3 (3 : Int).toNat))
        = (rowsOf rows3 (3 : Int).toNat).filter (fun p => p ≠ []) ∧
    ((∃ p ∈ rowsOf rows3 (3 : Int).toNat, p ≠ []) →
      (DataObject.new rows3 3 true).map (fun d => d.GetData true true true true)
        = some (HRESULT.S_OK, some (DropPayload.mk sizeof_DROPFILES true
            (encodeDoubleNul (rowsOf rows3 (3 : Int).toNat))))) :=
  ⟨⟨by decide, by decide⟩, payload_round_trip rows3 3 (by decide) (by decide)⟩

/-! ## The preview text -/

theorem StringCchCatW_length_le (dst : WStr) (cch : Nat) (src : WStr) :
    (StringCchCatW dst cch src).length ≤ cch - 1 := by
  simp only [StringCchCatW, List.length_take]
  exact Nat.min_le_left _ _

theorem StringCchCatW_fit {dst src : WStr} {cch : Nat} (hd : NUL ∉ dst)
    (hfit : dst.length + (cstr src).length ≤ cch - 1) :
    StringCchCatW dst cch src = dst ++ cstr src := by
  simp only [StringCchCatW, cstr_eq_self hd]
  exact List.take_of_length_le (by simpa using hfit)

theorem headD_nul_iff_nil {s : WStr} (h : NUL ∉ s) : s.headD NUL = NUL ↔ s = [] := by
  rw [headD_nul_iff, cstr_eq_self h]

theorem nul_not_mem_CRLF : NUL ∉ CRLF := by decide

/-- The loop ends as soon as `written` reaches `showNames`. -/
theorem tipLoop_stop (r : Registry) (showNames : Int) (rows : List Nat) (text : WStr)
    (written : Int) (h : ¬ written < showNames) :
    tipLoop r showNames rows text written = (text, written) := by
  cases rows with
  | nil => rfl
  | cons i rest => simp only [tipLoop, h, if_false]

theorem intercalate_cons (sep l : WStr) (ls : List WStr) :
    sep.intercalate (l :: ls) = l ++ (ls.map (fun x => sep ++ x)).flatten := by
  induction ls generalizing l with
  | nil => simp [List.intercalate]
  | cons l2 ls ih =>
    have h := ih l2
    simp only [List.intercalate, List.intersperse, List.flatten, List.map_cons,
      List.append_assoc] at h ⊢
    rw [h]

theorem intercalate_snoc (sep l : WStr) (ls : List WStr) (h : ls ≠ []) :
    sep.intercalate (ls ++ [l]) = sep.intercalate ls ++ sep ++ l := by
  cases ls with
  | nil => exact absurd rfl h
  | cons a as =>
    rw [List.cons_append, intercalate_cons, intercalate_cons]
    simp

theorem intercalate_eq_nil_iff (sep : WStr) (ls : List WStr) (hne : ∀ l ∈ ls, l ≠ []) :
    sep.intercalate ls = [] ↔ ls = [] := by
  cases ls with
  | nil => simp [List.intercalate]
  | cons a as =>
    rw [intercalate_cons]
    simp [hne a (List.mem_cons_self _ _)]

theorem nul_not_mem_intercalate (ls : List WStr) (h : ∀ l ∈ ls, NUL ∉ l) :
    NUL ∉ CRLF.intercalate ls := by
  cases ls with
  | nil => simp [List.intercalate]
  | cons a as =>
    rw [intercalate_cons]
    intro hmem
    rcases List.mem_append.mp hmem with e | e
    · exact h a (List.mem_cons_self _ _) e
    · obtain ⟨l, hl, hin⟩ := List.mem_flatten.mp e
      obtain ⟨x, hx, rfl⟩ := List.mem_map.mp hl
      rcases List.mem_append.mp hin with e2 | e2
      · exact nul_not_mem_CRLF e2
      · exact h x (List.mem_cons_of_mem _ hx) e2

theorem intercalate_length_mono (sep : WStr) (ls : List WStr) (l : WStr) :
    (sep.intercalate ls).length ≤ (sep.intercalate (ls ++ [l])).length := by
  cases ls with
  | nil => simp [List.intercalate]
  | cons a as =>
    rw [intercalate_snoc sep l (a :: as) (by simp)]
    simp only [List.length_append]
    omega

theorem intercalate_length_mono_append (sep : WStr) (ls ms : List WStr) :
    (sep.intercalate ls).length ≤ (sep.intercalate (ls ++ ms)).length := by
  induction ms using List.reverseRecOn with
  | nil => simp
  | append_singleton ms m ih =>
    rw [← List.append_assoc]
    exact le_trans ih (intercalate_length_mono sep (ls ++ ms) m)

/-- Appending one line to a text that is the lines `done` joined by line breaks,
as the code does it (a line break first unless the text is empty), when the
result fits the buffer. -/
theorem appendLine_fit (done : List WStr) (s : WStr) (hdone : ∀ l ∈ done, l ≠ [] ∧ NUL ∉ l)
    (hfit1 : (CRLF.intercalate (done ++ [cstr s])).length ≤ TIP_TEXT_CCH - 1) :
    StringCchCatW
        (if (CRLF.intercalate done).headD NUL ≠ NUL
          then StringCchCatW (CRLF.intercalate done) TIP_TEXT_CCH CRLF
          else CRLF.intercalate done) TIP_TEXT_CCH s
      = CRLF.intercalate (done ++ [cstr s]) := by
  have hnulDone : NUL ∉ CRLF.intercalate done :=
    nul_not_mem_intercalate done (fun l hl => (hdone l hl).2)
  by_cases hd : done = []
  · subst hd
    have hfit0 : ([] : WStr).length + (cstr s).length ≤ TIP_TEXT_CCH - 1 := by
      simpa [List.intercalate] using hfit1
    simp only [List.intercalate, List.intersperse, List.flatten, List.headD_nil, ne_eq,
      not_true_eq_false, if_false, List.nil_append, List.append_nil]
    rw [StringCchCatW_fit (by simp) hfit0]
    simp
  · have hne : CRLF.intercalate done ≠ [] := fun e =>
      hd ((intercalate_eq_nil_iff CRLF done (fun l hl => (hdone l hl).1)).mp e)
    have hhead : (CRLF.intercalate done).headD NUL ≠ NUL := fun e =>
      hne ((headD_nul_iff_nil hnulDone).mp e)
    rw [intercalate_snoc CRLF _ done hd] at hfit1 ⊢
    simp only [List.length_append] at hfit1
    have hc : cstr CRLF = CRLF := cstr_eq_self nul_not_mem_CRLF
    have h1 : StringCchCatW (CRLF.intercalate done) TIP_TEXT_CCH CRLF
        = CRLF.intercalate done ++ CRLF := by
      rw [StringCchCatW_fit hnulDone (by rw [hc]; omega), hc]
    have hn2 : NUL ∉ CRLF.intercalate done ++ CRLF := by
      simp only [List.mem_append, not_or]; exact ⟨hnulDone, nul_not_mem_CRLF⟩
    rw [if_pos hhead, h1, StringCchCatW_fit hn2 (by
      simp only [List.length_append] at hfit1 ⊢; omega)]

/-- One run of the loop body on a row with a non-empty name, the text so far
being the lines `done` joined by line breaks: while the result fits the buffer,
the name is appended as one more line. -/
theorem tipLoop_run (r : Registry) (showNames : Int) (rest : List Nat) :
    ∀ (rows : List Nat) (done : List WStr) (written : Int),
      (∀ l ∈ done, l ≠ [] ∧ NUL ∉ l) →
      (∀ i ∈ rows, displayName r i ≠ []) →
      written + rows.length ≤ showNames →
      (CRLF.intercalate (done ++ rows.map (displayName r))).length ≤ TIP_TEXT_CCH - 1 →
      tipLoop r showNames (rows ++ rest) (CRLF.intercalate done) written
        = tipLoop r showNames rest (CRLF.intercalate (done ++ rows.map (displayName r)))
            (written + rows.length)
  | [], done, written, _, _, _, _ => by simp
  | i :: rows, done, written, hdone, hrows, hle, hfit => by
    have hlt : written < showNames := by simp only [List.length_cons] at hle; push_cast at hle; omega
    have hi : displayName r i ≠ [] := hrows i (List.mem_cons_self _ _)
    have hskip : ¬ (rowText r i).headD NUL = NUL := fun e => hi ((headD_nul_iff _).mp e)
    have hnulDone : NUL ∉ CRLF.intercalate done := nul_not_mem_intercalate done (fun l hl => (hdone l hl).2)
    have hdone' : ∀ l ∈ done ++ [displayName r i], l ≠ [] ∧ NUL ∉ l := by
      intro l hl
      rcases List.mem_append.mp hl with e | e
      · exact hdone l e
      · rw [List.mem_singleton.mp e]; exact ⟨hi, nul_not_mem_cstr _⟩
    have hfit1 : (CRLF.intercalate (done ++ [displayName r i])).length ≤ TIP_TEXT_CCH - 1 := by
      refine le_trans ?_ hfit
      have := intercalate_length_mono_append CRLF (done ++ [displayName r i])
        (rows.map (displayName r))
      simpa using this
    have hstep := appendLine_fit done (rowText r i) hdone hfit1
    have ih := tipLoop_run r showNames rest rows (done ++ [displayName r i]) (written + 1) hdone'
      (fun j hj => hrows j (List.mem_cons_of_mem _ hj))
      (by simp only [List.length_cons] at hle; push_cast at hle; omega)
      (by simpa using hfit)
    rw [List.cons_append, tipLoop]
    simp only [hlt, if_true, hskip, if_false]
    rw [hstep, ← displayName, ih]
    simp only [List.append_assoc, List.singleton_append, List.map_cons, List.length_cons]
    push_cast
    rw [add_assoc, add_comm (1 : Int)]

theorem displayNames_ne_nil (r : Registry) (n : Nat) (h : ∀ i, i < n → displayName r i ≠ []) :
    ∀ l ∈ ([] : List WStr) ++ displayNames r n, l ≠ [] ∧ NUL ∉ l := by
  intro l hl
  simp only [List.nil_append, displayNames, List.mem_map, List.mem_range] at hl
  obtain ⟨i, hi, rfl⟩ := hl
  exact ⟨h i hi, nul_not_mem_cstr _⟩

/-- The loop on the first `k` rows of the registry, all with a non-empty name,
when `k ≤ showNames` and the joined names fit the buffer. -/
theorem tipLoop_prefix (r : Registry) (showNames : Int) (k : Nat) (rest : List Nat)
    (hne : ∀ i, i < k → displayName r i ≠ []) (hk : (k : Int) ≤ showNames)
    (hfit : (CRLF.intercalate (displayNames r k)).length ≤ TIP_TEXT_CCH - 1) :
    tipLoop r showNames (List.range k ++ rest) [] 0
      = tipLoop r showNames rest (CRLF.intercalate (displayNames r k)) k := by
  have h := tipLoop_run r showNames rest (List.range k) [] 0 (by simp)
    (fun i hi => hne i (List.mem_range.mp hi)) (by simpa using hk)
    (by simpa [displayNames] using hfit)
  simpa [displayNames, List.intercalate] using h

/-- C7 (amended): for every non-empty registry whose count is at most `maxLines`,
whose rows each have a non-empty display name or path (as every stored entry
has) and whose names joined by line breaks fit the 16383 characters of the text
buffer, the preview text is every entry's display name (the full path when the
name is empty) in registry order, separated by line breaks, with no summary
line, and the returned line count is the count. -/
theorem preview_lists_all (r : Registry) (tipMaxLines : Int) (hpos : 0 < r.g_count)
    (hle : (r.g_count : Int) ≤ tipMaxLines)
    (hne : ∀ i, i < r.g_count → displayName r i ≠ [])
    (hfit : (CRLF.intercalate (displayNames r r.g_count)).length ≤ TIP_TEXT_CCH - 1) :
    BuildTipTextAndGetShownLines r tipMaxLines
      = (CRLF.intercalate (displayNames r r.g_count), (r.g_count : Int)) := by
  have hloop := tipLoop_prefix r tipMaxLines r.g_count [] hne hle hfit
  rw [List.append_nil] at hloop
  have h0 : ¬ (r.g_count : Int) ≤ 0 := by omega
  have h1 : ¬ tipMaxLines < 1 := by omega
  have h2 : ¬ (r.g_count : Int) > tipMaxLines := by omega
  have h3 : ¬ tipMaxLines < 0 := by omega
  simp only [BuildTipTextAndGetShownLines, h0, h1, h2, h3, if_false, decide_False,
    Bool.false_and, Bool.false_eq_true, hloop, tipLoop]

/-- Witness for C7 (amended): 30 entries named `f` with `max_lines = 30`; all 30
names are shown. -/
theorem preview_lists_all_witness :
    (0 < (regConst "f".toList 30).g_count ∧
      ((regConst "f".toList 30).g_count : Int) ≤ 30 ∧
      (∀ i, i < (regConst "f".toList 30).g_count →
        displayName (regConst "f".toList 30) i ≠ []) ∧
      (CRLF.intercalate (displayNames (regConst "f".toList 30)
        (regConst "f".toList 30).g_count)).length ≤ TIP_TEXT_CCH - 1) ∧
    BuildTipTextAndGetShownLines (regConst "f".toList 30) 30
      = (CRLF.intercalate (displayNames (regConst "f".toList 30)
          (regConst "f".toList 30).g_count),
         ((regConst "f".toList 30).g_count : Int)) := by
  set_option maxRecDepth 20000 in
  exact ⟨⟨by decide, by decide, by decide, by decide⟩,
    preview_lists_all (regConst "f".toList 30) 30 (by decide) (by decide) (by decide)
      (by decide)⟩

theorem moreLine_facts : ∀ k : Nat, k ≤ 100 →
    StringCchPrintfW_more 64 (k : Int) = moreLine (k : Int) ∧ NUL ∉ moreLine (k : Int) ∧
      moreLine (k : Int) ≠ [] := by
  set_option maxRecDepth 20000 in decide

/-- C6 (amended): for every registry of at most `HARD_MAX` entries whose count
exceeds `maxLines ≥ 1`, whose first `maxLines - 1` rows each have a non-empty
display name or path and whose preview text fits the 16383 characters of the
text buffer, the text is the first `maxLines - 1` display names in order, then
the summary line the code writes, `...还有 N 个文件` with
`N = count - (maxLines - 1)`, all separated by line breaks, and the returned line
count is `maxLines`. -/
theorem preview_truncates (r : Registry) (tipMaxLines : Int) (h1 : 1 ≤ tipMaxLines)
    (hgt : tipMaxLines < (r.g_count : Int)) (hmax : r.g_count ≤ HARD_MAX)
    (hne : ∀ i, i < (tipMaxLines - 1).toNat → displayName r i ≠ [])
    (hfit : (CRLF.intercalate (displayNames r (tipMaxLines - 1).toNat ++
        [moreLine ((r.g_count : Int) - (tipMaxLines - 1))])).length ≤ TIP_TEXT_CCH - 1) :
    BuildTipTextAndGetShownLines r tipMaxLines
      = (CRLF.intercalate (displayNames r (tipMaxLines - 1).toNat ++
          [moreLine ((r.g_count : Int) - (tipMaxLines - 1))]), tipMaxLines) := by
  obtain ⟨k, hk⟩ : ∃ k : Nat, tipMaxLines - 1 = (k : Int) := ⟨(tipMaxLines - 1).toNat, by omega⟩
  obtain ⟨n, hn⟩ : ∃ n : Nat, (r.g_count : Int) - (tipMaxLines - 1) = (n : Int) :=
    ⟨((r.g_count : Int) - (tipMaxLines - 1)).toNat, by omega⟩
  rw [hn, hk] at hfit ⊢
  rw [hk] at hne
  simp only [Int.toNat_ofNat] at hfit hne ⊢
  have hn100 : n ≤ 100 := by simp only [HARD_MAX] at hmax; omega
  obtain ⟨hmore, hmnul, hmne⟩ := moreLine_facts n hn100
  have hcount : r.g_count = k + (r.g_count - k) := by omega
  have hfitk : (CRLF.intercalate (displayNames r k)).length ≤ TIP_TEXT_CCH - 1 :=
    le_trans (intercalate_length_mono CRLF _ _) hfit
  have hloop : tipLoop r (k : Int) (List.range r.g_count) [] 0
      = (CRLF.intercalate (displayNames r k), (k : Int)) := by
    rw [hcount, List.range_add, tipLoop_prefix r k k _ hne le_rfl hfitk,
      tipLoop_stop _ _ _ _ _ (lt_irrefl _)]
  have hdone : ∀ l ∈ displayNames r k, l ≠ [] ∧ NUL ∉ l := by
    simpa using displayNames_ne_nil r k hne
  have hstep := appendLine_fit (displayNames r k) (moreLine (n : Int)) hdone
    (by rw [cstr_eq_self hmnul]; exact hfit)
  rw [cstr_eq_self hmnul] at hstep
  have h0 : ¬ (r.g_count : Int) ≤ 0 := by omega
  have h1' : ¬ tipMaxLines < 1 := by omega
  have h2 : (r.g_count : Int) > tipMaxLines := by omega
  have h3 : ¬ (k : Int) < 0 := by omega
  have h4 : tipMaxLines ≥ 1 := h1
  have h5 : (r.g_count : Int) - (k : Int) = (n : Int) := by omega
  have h6 : ¬ tipMaxLines ≤ 0 := by omega
  have h7 : (k : Int) + 1 = tipMaxLines := by omega
  simp only [BuildTipTextAndGetShownLines, h0, h1', h2, h3, h4, if_false, if_true, decide_True,
    Bool.true_and, Bool.and_self, hk, hloop, h5, hmore, hstep, h6, h7]

/-- Witness for C6 (amended): 35 entries named `f` with `max_lines = 30`; 29 names
and the summary line for 6 more are shown. -/
theorem preview_truncates_witness :
    ((1 : Int) ≤ 30 ∧ (30 : Int) < ((regConst "f".toList 35).g_count : Int) ∧
      (regConst "f".toList 35).g_count ≤ HARD_MAX ∧
      (∀ i, i < ((30 : Int) - 1).toNat → displayName (regConst "f".toList 35) i ≠ []) ∧
      (CRLF.intercalate (displayNames (regConst "f".toList 35) ((30 : Int) - 1).toNat ++
        [moreLine (((regConst "f".toList 35).g_count : Int) - (30 - 1))])).length
          ≤ TIP_TEXT_CCH - 1) ∧
    BuildTipTextAndGetShownLines (regConst "f".toList 35) 30
      = (CRLF.intercalate (displayNames (regConst "f".toList 35) ((30 : Int) - 1).toNat ++
          [moreLine (((regConst "f".toList 35).g_count : Int) - (30 - 1))]), 30) := by
  set_option maxRecDepth 20000 in
  exact
    ⟨⟨by decide, by decide, by decide, by decide, by decide⟩,
    preview_truncates (regConst "f".toList 35) 30 (by decide) (by decide) (by decide)
      (by decide) (by decide)⟩

theorem tipLoop_text_length_le (r : Registry) (showNames : Int) :
    ∀ (rows : List Nat) (text : WStr) (written : Int), text.length ≤ TIP_TEXT_CCH - 1 →
      (tipLoop r showNames rows text written).1.length ≤ TIP_TEXT_CCH - 1
  | [], text, written, h => by simpa [tipLoop] using h
  | i :: rows, text, written, h => by
    simp only [tipLoop]
    split_ifs
    all_goals first
      | exact h
      | exact tipLoop_text_length_le r showNames rows _ _ h
      | exact tipLoop_text_length_le r showNames rows _ _ (StringCchCatW_length_le _ _ _)

/-- The preview text never exceeds the text buffer, whatever the registry holds. -/
theorem BuildTip_text_length_le (r : Registry) (tipMaxLines : Int) :
    (BuildTipTextAndGetShownLines r tipMaxLines).1.length ≤ TIP_TEXT_CCH - 1 := by
  simp only [BuildTipTextAndGetShownLines]
  split_ifs
  all_goals first
    | exact StringCchCatW_length_le _ _ _
    | exact tipLoop_text_length_le r _ _ _ _ (Nat.zero_le _)
    | (simp only [StringCchCopyW, List.length_take]; exact Nat.min_le_left _ _)

theorem intercalate_length_ge (sep : WStr) (L : Nat) (ls : List WStr)
    (h : ∀ l ∈ ls, L ≤ l.length) : ls.length * L ≤ (sep.intercalate ls).length := by
  induction ls using List.reverseRecOn with
  | nil => simp
  | append_singleton ls l ih =>
    have hl : L ≤ l.length := h l (by simp)
    have ih2 := ih (fun x hx => h x (by simp [hx]))
    by_cases hnil : ls = []
    · subst hnil
      simpa [List.intercalate] using hl
    · rw [intercalate_snoc sep l ls hnil]
      simp only [List.length_append, List.length_singleton, Nat.add_mul, Nat.one_mul]
      omega

theorem displayName_regConst (s : WStr) (n i : Nat) : displayName (regConst s n) i = cstr s := by
  simp [displayName, rowText, regConst]

theorem displayNames_bigReg_length (k : Nat) :
    k * 200 ≤ (CRLF.intercalate (displayNames bigReg k)).length := by
  have h := intercalate_length_ge CRLF 200 (displayNames bigReg k) (by
    intro l hl
    simp only [displayNames, List.mem_map, List.mem_range] at hl
    obtain ⟨i, _, rfl⟩ := hl
    have hn : NUL ∉ List.replicate 200 (Char.ofNat 97) := by
      intro hm
      exact absurd (List.eq_of_mem_replicate hm) (by decide)
    rw [bigReg, displayName_regConst, cstr_eq_self hn, List.length_replicate])
  simpa [displayNames] using h

/-- C6, as stated, fails.  On the claim's own example (35 entries,
`max_lines = 30`) the text is 29 names followed by the line `...还有 6 个文件`,
which is not the line `...and 6 more files`.  And for 100 entries with names of
200 letters and `max_lines = 99` the text, cut to the 16383 characters of
`g_tipText`, is shorter than the 98 names joined alone. -/
theorem preview_truncates_counterexample :
    (BuildTipTextAndGetShownLines (regConst "f".toList 35) 30
        = (CRLF.intercalate (displayNames (regConst "f".toList 35) 29 ++
            ["...还有 6 个文件".toList]), 30)
      ∧ "...还有 6 个文件".toList ≠ "...and 6 more files".toList)
    ∧ ((1 : Int) ≤ 99 ∧ (99 : Int) < (bigReg.g_count : Int))
    ∧ (BuildTipTextAndGetShownLines bigReg 99).1.length
        < (CRLF.intercalate (displayNames bigReg 98)).length := by
  refine ⟨?_, by decide, ?_⟩
  · set_option maxRecDepth 20000 in decide
  · have h1 := BuildTip_text_length_le bigReg 99
    have h2 := displayNames_bigReg_length 98
    simp only [TIP_TEXT_CCH] at h1
    omega

/-- C7, as stated, fails: for 100 entries with names of 200 letters and
`max_lines = 100` (count at most `maxLines`) the text, cut to the 16383
characters of `g_tipText`, is shorter than the 100 names joined by line breaks,
so it does not list every entry. -/
theorem preview_lists_all_counterexample :
    (0 < bigReg.g_count ∧ (bigReg.g_count : Int) ≤ 100) ∧
    (BuildTipTextAndGetShownLines bigReg 100).1.length
      < (CRLF.intercalate (displayNames bigReg bigReg.g_count)).length := by
  refine ⟨by decide, ?_⟩
  have h1 := BuildTip_text_length_le bigReg 100
  have h2 := displayNames_bigReg_length 100
  simp only [TIP_TEXT_CCH] at h1
  have h3 : bigReg.g_count = 100 := rfl
  rw [h3]
  omega

/-! ## Drag-out: the gesture -/

theorem wrapInt32_eq_self {v : Int} (h1 : -2147483648 ≤ v) (h2 : v ≤ 2147483647) :
    wrapInt32 v = v := by
  unfold wrapInt32; omega

theorem drags_append (a b : List Effect) : drags (a ++ b) = drags a + drags b := by
  simp [drags, List.filter_append]

theorem drags_StartDrag (r : Registry) (allocOk : Bool) :
    drags (Effect.ReleaseCapture :: StartDragIfHasFiles r allocOk)
      = if r.g_count = 0 then 0 else 1 := by
  unfold StartDragIfHasFiles
  by_cases h : r.g_count = 0
  · simp [h, drags, Effect.isDrag]
  · have h2 : ¬ (r.g_count : Int) ≤ 0 := by omega
    simp [h, h2, drags, Effect.isDrag]

/-- The squared distance the code compares with 25, when neither coordinate
moves by more than 32767: nothing wraps. -/
theorem movedSq_no_wrap (x0 y0 x y : Int) (hx : |x - x0| ≤ 32767) (hy : |y - y0| ≤ 32767) :
    movedSq (x0, y0) x y = (x - x0) * (x - x0) + (y - y0) * (y - y0) := by
  simp only [movedSq]
  generalize x - x0 = dx at hx ⊢
  generalize y - y0 = dy at hy ⊢
  have hx2 := abs_le.mp hx
  have hy2 := abs_le.mp hy
  have hxx : dx * dx ≤ 32767 * 32767 := by
    have := mul_self_le_mul_self (abs_nonneg dx) hx
    rwa [abs_mul_abs_self] at this
  have hyy : dy * dy ≤ 32767 * 32767 := by
    have := mul_self_le_mul_self (abs_nonneg dy) hy
    rwa [abs_mul_abs_self] at this
  have hx0 := mul_self_nonneg dx
  have hy0 := mul_self_nonneg dy
  rw [wrapInt32_eq_self (v := dx) (by omega) (by omega),
    wrapInt32_eq_self (v := dy) (by omega) (by omega),
    wrapInt32_eq_self (v := dx * dx) (by omega) (by omega),
    wrapInt32_eq_self (v := dy * dy) (by omega) (by omega),
    wrapInt32_eq_self (by omega) (by omega)]

/-- C8, as stated, fails: after a press at (10, 10) with a non-empty registry, a
move by dx = 4, dy = 4 (below 5 pixels in both axes) starts a drag, since
16 + 16 > 25, and a move by dx = 5, dy = 0 (5 pixels in an axis) starts none,
since 25 > 25 is false. -/
theorem drag_threshold_counterexample :
    (runMsgs true [Msg.WM_LBUTTONDOWN 10 10, Msg.WM_MOUSEMOVE true 14 14] (appOf regX)).map
        (fun p => drags p.2) = some 1
    ∧ (runMsgs true [Msg.WM_LBUTTONDOWN 10 10, Msg.WM_MOUSEMOVE true 15 10] (appOf regX)).map
        (fun p => drags p.2) = some 0 := by
  decide

/-- C8 (amended): with a non-empty registry, after a button-down at any point, a
mouse-move with the primary button held, by at most 32767 pixels in each axis,
starts a drag exactly when the squared distance `dx * dx + dy * dy` from the
button-down point is greater than 25; at 25 or below it starts none. -/
theorem drag_threshold (allocOk : Bool) (s : AppState) (x0 y0 x y : Int)
    (hcount : 0 < s.reg.g_count) (hx : |x - x0| ≤ 32767) (hy : |y - y0| ≤ 32767) :
    (runMsgs allocOk [Msg.WM_LBUTTONDOWN x0 y0, Msg.WM_MOUSEMOVE true x y] s).map
        (fun p => drags p.2)
      = some (if (x - x0) * (x - x0) + (y - y0) * (y - y0) > 25 then 1 else 0) := by
  have hsq := movedSq_no_wrap x0 y0 x y hx hy
  have hc : ¬ s.reg.g_count = 0 := by omega
  by_cases h : (x - x0) * (x - x0) + (y - y0) * (y - y0) > 25
  · simp only [runMsgs, MainWndProc, Bool.and_self, if_true, hsq, h, Option.map_some',
      drags_append, drags_StartDrag, hc, if_false]
    simp [drags, Effect.isDrag]
  · simp only [runMsgs, MainWndProc, Bool.and_self, if_true, hsq, h, if_false, Option.map_some']
    simp [drags, Effect.isDrag]

/-- Witness for C8 (amended): press at (10, 10), move to (20, 10). -/
theorem drag_threshold_witness :
    (0 < (appOf regX).reg.g_count ∧ |(20 : Int) - 10| ≤ 32767 ∧ |(10 : Int) - 10| ≤ 32767) ∧
    (runMsgs true [Msg.WM_LBUTTONDOWN 10 10, Msg.WM_MOUSEMOVE true 20 10] (appOf regX)).map
        (fun p => drags p.2)
      = some (if ((20 : Int) - 10) * (20 - 10) + (10 - 10) * (10 - 10) > 25 then 1 else 0) :=
  ⟨⟨by decide, by decide, by decide⟩,
    drag_threshold true (appOf regX) 10 10 20 10 (by decide) (by decide) (by decide)⟩

/-- One mouse message: the registry is not touched, at most one drag starts, one
starts only with a non-empty registry and from the pressed state, and it leaves
the pressed flag cleared; the flag is set by a button-down only. -/
theorem mouse_step (allocOk : Bool) (s : AppState) (m : Msg) (hm : m.isMouse = true) :
    ∃ s1 e1, MainWndProc allocOk s m = some (s1, e1) ∧ s1.reg = s.reg ∧
      drags e1 ≤ 1 ∧
      (0 < drags e1 → 0 < s.reg.g_count ∧ s.g_mouseDown = true ∧ s1.g_mouseDown = false) ∧
      (m.isDown = false → s.g_mouseDown = false → s1.g_mouseDown = false) := by
  cases m with
  | WM_LBUTTONDOWN x y =>
    exact ⟨_, _, rfl, rfl, by simp [drags, Effect.isDrag], by simp [drags, Effect.isDrag],
      by simp [Msg.isDown]⟩
  | WM_LBUTTONUP =>
    exact ⟨_, _, rfl, rfl, by simp [drags, Effect.isDrag], by simp [drags, Effect.isDrag],
      by simp⟩
  | WM_MOUSEMOVE lbutton x y =>
    by_cases hp : (s.g_mouseDown && lbutton) = true
    · by_cases hq : movedSq s.g_mouseDownPt x y > 25
      · refine ⟨{ s with g_mouseDown := false },
          Effect.ReleaseCapture :: StartDragIfHasFiles s.reg allocOk, ?_, rfl, ?_, ?_, ?_⟩
        · simp only [MainWndProc, hp, hq, if_true]
        · rw [drags_StartDrag]; split_ifs <;> omega
        · rw [drags_StartDrag]
          intro h
          have hd : s.g_mouseDown = true := by
            cases hs : s.g_mouseDown with
            | true => rfl
            | false => simp [hs] at hp
          refine ⟨?_, hd, rfl⟩
          split_ifs at h with h0
          · omega
          · omega
        · intro _ _; rfl
      · refine ⟨s, [], ?_, rfl, by simp [drags], by simp [drags], fun _ h => h⟩
        simp only [MainWndProc, hp, hq, if_true, if_false]
    · refine ⟨s, [], ?_, rfl, by simp [drags], by simp [drags], fun _ h => h⟩
      simp only [MainWndProc, hp, if_false, Bool.false_eq_true]
  | _ => simp [Msg.isMouse] at hm

/-- C9: for every sequence of mouse messages (presses, moves of any distance,
releases) handled while the registry count is 0, no drag operation is started:
no data object is built and `DoDragDrop` is not called; the registry is left as
it is.  So a drag is started only when the count is positive. -/
theorem no_drag_when_empty (allocOk : Bool) (s : AppState) (msgs : List Msg)
    (h0 : s.reg.g_count = 0) (hm : msgs.all Msg.isMouse = true) :
    ∃ s' es, runMsgs allocOk msgs s = some (s', es) ∧ s'.reg = s.reg ∧
      es.filter Effect.isDrag = [] := by
  induction msgs generalizing s with
  | nil => exact ⟨s, [], rfl, rfl, rfl⟩
  | cons m rest ih =>
    simp only [List.all_cons, Bool.and_eq_true] at hm
    obtain ⟨s1, e1, h1, hreg, _, hdrag, _⟩ := mouse_step allocOk s m hm.1
    obtain ⟨s2, e2, h2, hreg2, hnil⟩ := ih s1 (by rw [hreg]; exact h0) hm.2
    refine ⟨s2, e1 ++ e2, ?_, by rw [hreg2, hreg], ?_⟩
    · simp only [runMsgs, h1, h2]
    · have he1 : drags e1 = 0 := by
        by_contra hne
        have := (hdrag (Nat.pos_of_ne_zero hne)).1
        omega
      rw [List.filter_append, hnil, List.append_nil]
      exact List.length_eq_zero.mp he1

/-- Witness for C9: press and a long move on the empty registry. -/
theorem no_drag_when_empty_witness :
    ((appOf Registry.init).reg.g_count = 0 ∧
      [Msg.WM_LBUTTONDOWN 10 10, Msg.WM_MOUSEMOVE true 200 10, Msg.WM_LBUTTONUP].all Msg.isMouse
        = true) ∧
    ∃ s' es, runMsgs true [Msg.WM_LBUTTONDOWN 10 10, Msg.WM_MOUSEMOVE true 200 10,
        Msg.WM_LBUTTONUP] (appOf Registry.init) = some (s', es) ∧
      s'.reg = (appOf Registry.init).reg ∧ es.filter Effect.isDrag = [] :=
  ⟨⟨by decide, by decide⟩,
    no_drag_when_empty true (appOf Registry.init)
      [Msg.WM_LBUTTONDOWN 10 10, Msg.WM_MOUSEMOVE true 200 10, Msg.WM_LBUTTONUP]
      (by decide) (by decide)⟩

/-- C10: in every sequence of mouse messages without a button-down (the messages
between one button-down and the next), from any state, at most one drag is
started; once one has started the pressed flag is cleared, and from the cleared
flag no move, however far, starts a drag; a sequence that begins with the
button-down starts at most one drag too; and a button-up always leaves the
pressed flag cleared. -/
theorem at_most_one_drag_per_press (allocOk : Bool) (s : AppState) (msgs : List Msg)
    (hm : msgs.all (fun m => m.isMouse && !m.isDown) = true) :
    (∃ s' es, runMsgs allocOk msgs s = some (s', es) ∧ drags es ≤ 1 ∧
      (0 < drags es → s'.g_mouseDown = false) ∧
      (s.g_mouseDown = false → drags es = 0 ∧ s'.g_mouseDown = false)) ∧
    (∀ x y, ∃ s' es, runMsgs allocOk (Msg.WM_LBUTTONDOWN x y :: msgs) s = some (s', es) ∧
      drags es ≤ 1) ∧
    (∀ x y, s.g_mouseDown = true → movedSq s.g_mouseDownPt x y > 25 →
      MainWndProc allocOk s (Msg.WM_MOUSEMOVE true x y)
        = some ({ s with g_mouseDown := false },
            Effect.ReleaseCapture :: StartDragIfHasFiles s.reg allocOk)) ∧
    (MainWndProc allocOk s Msg.WM_LBUTTONUP).map (fun p => p.1.g_mouseDown) = some false := by
  have key : ∀ (msgs : List Msg) (s : AppState),
      msgs.all (fun m => m.isMouse && !m.isDown) = true →
      ∃ s' es, runMsgs allocOk msgs s = some (s', es) ∧ drags es ≤ 1 ∧
        (0 < drags es → s'.g_mouseDown = false) ∧
        (s.g_mouseDown = false → drags es = 0 ∧ s'.g_mouseDown = false) := by
    intro msgs
    induction msgs with
    | nil => intro s _; exact ⟨s, [], rfl, by simp [drags], by simp [drags], fun h => ⟨rfl, h⟩⟩
    | cons m rest ih =>
      intro s hm
      simp only [List.all_cons, Bool.and_eq_true, Bool.not_eq_true'] at hm
      obtain ⟨s1, e1, h1, _, hle, hdrag, hflag⟩ := mouse_step allocOk s m hm.1.1
      obtain ⟨s2, e2, h2, hle2, hd2, hoff2⟩ := ih s1 (by
        simpa only [Bool.and_eq_true, Bool.not_eq_true'] using hm.2)
      refine ⟨s2, e1 ++ e2, ?_, ?_, ?_, ?_⟩
      · simp only [runMsgs, h1, h2]
      · rw [drags_append]
        by_cases hpos : 0 < drags e1
        · have := (hoff2 (hdrag hpos).2.2).1
          omega
        · omega
      · rw [drags_append]
        intro hpos
        by_cases hpos1 : 0 < drags e1
        · exact (hoff2 (hdrag hpos1).2.2).2
        · exact hd2 (by omega)
      · intro hoff
        have hs1 : s1.g_mouseDown = false := hflag hm.1.2 hoff
        have he1 : drags e1 = 0 := by
          by_contra hne
          have := (hdrag (Nat.pos_of_ne_zero hne)).2.1
          rw [hoff] at this
          exact Bool.noConfusion this
        have := hoff2 hs1
        rw [drags_append]
        exact ⟨by omega, this.2⟩
  refine ⟨key msgs s hm, ?_, ?_, rfl⟩
  swap
  · intro x y hd hq
    simp only [MainWndProc, hd, Bool.and_self, if_true, hq]
  intro x y
  obtain ⟨s2, e2, h2, hle2, _, _⟩ := key msgs
    { s with g_mouseDown := true, g_mouseDownPt := (x, y) } hm
  refine ⟨s2, [Effect.SetCapture] ++ e2, ?_, ?_⟩
  · simp only [runMsgs, MainWndProc, h2]
  · rw [drags_append]
    have : drags [Effect.SetCapture] = 0 := by simp [drags, Effect.isDrag]
    omega

/-- Witness for C10: after a press, three far moves and a release. -/
theorem at_most_one_drag_per_press_witness :
    ([Msg.WM_MOUSEMOVE true 30 10, Msg.WM_MOUSEMOVE true 60 10, Msg.WM_MOUSEMOVE true 90 10,
        Msg.WM_LBUTTONUP].all (fun m => m.isMouse && !m.isDown) = true) ∧
    ((∃ s' es, runMsgs true [Msg.WM_MOUSEMOVE true 30 10, Msg.WM_MOUSEMOVE true 60 10,
        Msg.WM_MOUSEMOVE true 90 10, Msg.WM_LBUTTONUP] (appOf regX) = some (s', es) ∧
        drags es ≤ 1 ∧ (0 < drags es → s'.g_mouseDown = false) ∧
        ((appOf regX).g_mouseDown = false → drags es = 0 ∧ s'.g_mouseDown = false)) ∧
      (∀ x y, ∃ s' es, runMsgs true (Msg.WM_LBUTTONDOWN x y ::
        [Msg.WM_MOUSEMOVE true 30 10, Msg.WM_MOUSEMOVE true 60 10, Msg.WM_MOUSEMOVE true 90 10,
          Msg.WM_LBUTTONUP]) (appOf regX) = some (s', es) ∧ drags es ≤ 1) ∧
      (∀ x y, (appOf regX).g_mouseDown = true → movedSq (appOf regX).g_mouseDownPt x y > 25 →
        MainWndProc true (appOf regX) (Msg.WM_MOUSEMOVE true x y)
          = some ({ appOf regX with g_mouseDown := false },
              Effect.ReleaseCapture :: StartDragIfHasFiles (appOf regX).reg true)) ∧
      (MainWndProc true (appOf regX) Msg.WM_LBUTTONUP).map (fun p => p.1.g_mouseDown)
        = some false) :=
  ⟨by decide,
    at_most_one_drag_per_press true (appOf regX)
      [Msg.WM_MOUSEMOVE true 30 10, Msg.WM_MOUSEMOVE true 60 10, Msg.WM_MOUSEMOVE true 90 10,
        Msg.WM_LBUTTONUP] (by decide)⟩

/-! ## Drag-in: the stored entry -/

theorem lastIndexOf_eq_none (c : Char) : ∀ (l : WStr), lastIndexOf c l = none ↔ c ∉ l
  | [] => by simp [lastIndexOf]
  | x :: xs => by
    have ih := lastIndexOf_eq_none c xs
    cases h : lastIndexOf c xs with
    | some i =>
      have hmem : c ∈ xs := by
        by_contra hn
        rw [ih.mpr hn] at h
        exact Option.noConfusion h
      simp [lastIndexOf, h, hmem]
    | none =>
      have hn : c ∉ xs := ih.mp h
      by_cases hx : x = c
      · simp [lastIndexOf, h, hx]
      · have hx2 : ¬ c = x := fun e => hx e.symm
        simp [lastIndexOf, h, hx, hx2, hn]

theorem lastIndexOf_eq_some (c : Char) :
    ∀ (l : WStr) (i : Nat), lastIndexOf c l = some i →
      l = l.take i ++ c :: l.drop (i + 1) ∧ c ∉ l.drop (i + 1)
  | [], i, h => by simp [lastIndexOf] at h
  | x :: xs, i, h => by
    cases hxs : lastIndexOf c xs with
    | some j =>
      simp only [lastIndexOf, hxs, Option.some.injEq] at h
      subst h
      obtain ⟨h1, h2⟩ := lastIndexOf_eq_some c xs j hxs
      refine ⟨?_, by simpa using h2⟩
      simp only [List.take_succ_cons, List.drop_succ_cons, List.cons_append]
      rw [← h1]
    | none =>
      have hn : c ∉ xs := (lastIndexOf_eq_none c xs).mp hxs
      simp only [lastIndexOf, hxs] at h
      split_ifs at h with hx
      simp only [Option.some.injEq] at h
      subst h
      subst hx
      exact ⟨by simp, by simpa using hn⟩

/-- The source of the display name of a NUL-free path is the part after its last
backslash, or the whole path when it has none. -/
theorem baseOrPath_spec {p : WStr} (hnul : NUL ∉ p) :
    BACKSLASH ∉ baseOrPath p ∧ (BACKSLASH ∉ p → baseOrPath p = p) ∧
    (BACKSLASH ∈ p → ∃ pre, p = pre ++ BACKSLASH :: baseOrPath p) ∧ baseOrPath p <:+ p := by
  unfold baseOrPath wcsrchr
  rw [cstr_eq_self hnul]
  cases h : lastIndexOf BACKSLASH p with
  | none =>
    have hn := (lastIndexOf_eq_none BACKSLASH p).mp h
    exact ⟨hn, fun _ => rfl, fun hm => absurd hm hn, List.suffix_refl p⟩
  | some i =>
    obtain ⟨h1, h2⟩ := lastIndexOf_eq_some BACKSLASH p i h
    refine ⟨h2, ?_, fun _ => ⟨p.take i, h1⟩, List.drop_suffix _ _⟩
    intro hn
    exact absurd (by rw [h1]; simp) hn

/-- What a well-formed dropped path contributes: the path itself and the part
after its last backslash. -/
theorem accept_wellFormed_entry {p : WStr} (h : WellFormedPath p) :
    accept p = some (p, baseOrPath p) := by
  rw [accept_wellFormed h]
  obtain ⟨_, hnul, hlen⟩ := h
  obtain ⟨_, _, _, hsuf⟩ := baseOrPath_spec hnul
  have hn : NUL ∉ baseOrPath p := fun hm => hnul (hsuf.subset hm)
  have hl : (baseOrPath p).length ≤ MAX_PATH - 1 := by
    have := hsuf.length_le
    omega
  simp only [StringCchCopyW, cstr_eq_self hn, List.take_of_length_le hl]

/-- C11, as stated, fails: a dropped path of `MAX_PATH` characters is accepted
(the query returns 259) and stored cut to 259 characters, so the stored path is
not the dropped path and the stored name, 256 letters, is not the 257 letters
after the last backslash of the dropped path. -/
theorem stored_entry_counterexample :
    (dropFiles (LoadIniStyle_maxCount 100) false [longPath] Registry.init).map entries
        = some [(List.take 259 longPath, List.replicate 256 (Char.ofNat 97))]
    ∧ List.take 259 longPath ≠ longPath
    ∧ List.replicate 256 (Char.ofNat 97) ≠ List.drop 3 longPath := by
  set_option maxRecDepth 20000 in decide

theorem filterMap_accept_length (pre : List WStr) :
    (pre.filterMap accept).length
      = (pre.filter (fun q => decide ((DragQueryFileW q MAX_PATH).1 > 0))).length := by
  induction pre with
  | nil => rfl
  | cons q qs ih =>
    by_cases hq : (DragQueryFileW q MAX_PATH).1 > 0
    · have hacc : accept q = some (StringCchCopyW MAX_PATH (DragQueryFileW q MAX_PATH).2,
          StringCchCopyW MAX_PATH (baseOrPath (DragQueryFileW q MAX_PATH).2)) := by
        simp only [accept, hq, if_true]
      rw [List.filterMap_cons, hacc]
      simp [List.filter_cons, hq, ih]
    · have hacc : accept q = none := by simp only [accept, hq, if_false]
      rw [List.filterMap_cons, hacc]
      simp [List.filter_cons, hq, ih]

theorem filterMap_accept_wellFormed_entry :
    ∀ (drop : List WStr), (∀ p ∈ drop, WellFormedPath p) →
      drop.filterMap accept = drop.map (fun p => (p, baseOrPath p))
  | [], _ => rfl
  | p :: rest, h => by
    rw [List.filterMap_cons, accept_wellFormed_entry (h p (List.mem_cons_self _ _)),
      List.map_cons,
      filterMap_accept_wellFormed_entry rest (fun q hq => h q (List.mem_cons_of_mem _ hq))]

/-- Row `i` of the entries, read from the arrays. -/
theorem entries_getElem?_eq_some {r : Registry} {i : Nat} {e : WStr × WStr}
    (h : (entries r)[i]? = some e) :
    i < r.g_count ∧ r.g_paths i = e.1 ∧ r.g_names i = e.2 := by
  have hi : i < r.g_count := by
    have := (List.getElem?_eq_some.mp h).1
    simpa [entries] using this
  simp only [entries, List.getElem?_map, List.getElem?_range hi, Option.map_some',
    Option.some.injEq] at h
  subst h
  exact ⟨hi, rfl, rfl⟩

/-- C11 (amended): for every dropped path `p` that is a non-empty NUL-free string
shorter than `MAX_PATH` and is accepted (when the loop reaches it, after the
dropped paths `pre`, the count is still below `maxCount`), the entry stored for
it, in the row the loop has reached, has the full path `p` and as display name
the part of `p` after its last backslash, or the whole of `p` when it has no
backslash; so the name has no backslash and `p` ends with the name.  When all
dropped paths are of that kind, the entries stored by the drop are, in order,
the leading dropped paths up to the capacity, each with its own name. -/
theorem stored_entry_path_and_basename (ini : Int) (ctrlDown : Bool) (r : Registry)
    (pre : List WStr) (p : WStr) (post : List WStr)
    (hL : ctrlDown = true → (r.g_count : Int) ≤ LoadIniStyle_maxCount ini)
    (hwf : WellFormedPath p)
    (hroom : (slotAfter ctrlDown r pre : Int) < LoadIniStyle_maxCount ini) :
    ∃ r', dropFiles (LoadIniStyle_maxCount ini) ctrlDown (pre ++ p :: post) r = some r' ∧
      slotAfter ctrlDown r pre < r'.g_count ∧
      r'.g_paths (slotAfter ctrlDown r pre) = p ∧
      r'.g_names (slotAfter ctrlDown r pre) = baseOrPath p ∧
      BACKSLASH ∉ r'.g_names (slotAfter ctrlDown r pre) ∧
      (BACKSLASH ∉ p → r'.g_names (slotAfter ctrlDown r pre) = p) ∧
      (BACKSLASH ∈ p →
        ∃ front, p = front ++ BACKSLASH :: r'.g_names (slotAfter ctrlDown r pre)) ∧
      r'.g_names (slotAfter ctrlDown r pre) <:+ p ∧
      ((∀ q ∈ pre ++ p :: post, WellFormedPath q) →
        (entries r').drop (if ctrlDown then r.g_count else 0)
          = ((pre ++ p :: post).take
              ((LoadIniStyle_maxCount ini).toNat - (if ctrlDown then r.g_count else 0))).map
              (fun q => (q, baseOrPath q))) := by
  obtain ⟨h1, h2⟩ := LoadIniStyle_maxCount_range ini
  obtain ⟨r', hr, he⟩ := dropFiles_spec _ h2 ctrlDown (pre ++ p :: post) r hL (by omega)
  have hlen : (if ctrlDown then entries r else []).length
      = (if ctrlDown then r.g_count else 0) := by
    cases ctrlDown <;> simp [entries_length]
  have hcnt := filterMap_accept_length pre
  have hslot : slotAfter ctrlDown r pre
      = (if ctrlDown then entries r else []).length + (pre.filterMap accept).length := by
    rw [hlen, hcnt]; rfl
  have hk : (pre.filterMap accept).length
      < (LoadIniStyle_maxCount ini).toNat - (if ctrlDown then r.g_count else 0) := by
    rw [hslot, hlen] at hroom
    omega
  have hget : (entries r')[slotAfter ctrlDown r pre]? = some (p, baseOrPath p) := by
    rw [he, hslot, List.getElem?_append_right (Nat.le_add_right _ _), Nat.add_sub_cancel_left,
      List.getElem?_take_of_lt hk, List.filterMap_append, List.filterMap_cons,
      accept_wellFormed_entry hwf, List.getElem?_append_right (Nat.le_refl _), Nat.sub_self]
    simp only [List.getElem?_cons_zero]
  obtain ⟨hi, hp, hn⟩ := entries_getElem?_eq_some hget
  obtain ⟨a, b, c, d⟩ := baseOrPath_spec hwf.2.1
  simp only at hp hn
  refine ⟨r', hr, hi, hp, hn, ?_, ?_, ?_, ?_, ?_⟩
  · rw [hn]; exact a
  · rw [hn]; exact b
  · rw [hn]; exact c
  · rw [hn]; exact d
  · intro hall
    rw [he, List.drop_left' hlen, filterMap_accept_wellFormed_entry _ hall, List.map_take]

/-- Witness for C11 (amended): with Ctrl held, an empty path, the path
`C:\dir\a.txt` and the path `b` dropped on the registry holding `x`; the empty
path is skipped and the entry for `C:\dir\a.txt` is row 1. -/
theorem stored_entry_path_and_basename_witness :
    ((true = true → (regX.g_count : Int) ≤ LoadIniStyle_maxCount 100) ∧
      WellFormedPath
        ("C:".toList ++ [BACKSLASH] ++ "dir".toList ++ [BACKSLASH] ++ "a.txt".toList) ∧
      (slotAfter true regX [[]] : Int) < LoadIniStyle_maxCount 100 ∧
      slotAfter true regX [[]] = 1) ∧
    ∃ r', dropFiles (LoadIniStyle_maxCount 100) true
        ([[]] ++ ("C:".toList ++ [BACKSLASH] ++ "dir".toList ++ [BACKSLASH] ++ "a.txt".toList)
          :: ["b".toList]) regX = some r' ∧
      slotAfter true regX [[]] < r'.g_count ∧
      r'.g_paths (slotAfter true regX [[]])
        = "C:".toList ++ [BACKSLASH] ++ "dir".toList ++ [BACKSLASH] ++ "a.txt".toList ∧
      r'.g_names (slotAfter true regX [[]])
        = baseOrPath
            ("C:".toList ++ [BACKSLASH] ++ "dir".toList ++ [BACKSLASH] ++ "a.txt".toList) ∧
      BACKSLASH ∉ r'.g_names (slotAfter true regX [[]]) ∧
      (BACKSLASH ∉ "C:".toList ++ [BACKSLASH] ++ "dir".toList ++ [BACKSLASH] ++ "a.txt".toList →
        r'.g_names (slotAfter true regX [[]])
          = "C:".toList ++ [BACKSLASH] ++ "dir".toList ++ [BACKSLASH] ++ "a.txt".toList) ∧
      (BACKSLASH ∈ "C:".toList ++ [BACKSLASH] ++ "dir".toList ++ [BACKSLASH] ++ "a.txt".toList →
        ∃ front, "C:".toList ++ [BACKSLASH] ++ "dir".toList ++ [BACKSLASH] ++ "a.txt".toList
          = front ++ BACKSLASH :: r'.g_names (slotAfter true regX [[]])) ∧
      r'.g_names (slotAfter true regX [[]])
        <:+ "C:".toList ++ [BACKSLASH] ++ "dir".toList ++ [BACKSLASH] ++ "a.txt".toList ∧
      ((∀ q ∈ [[]] ++
          ("C:".toList ++ [BACKSLASH] ++ "dir".toList ++ [BACKSLASH] ++ "a.txt".toList)
            :: ["b".toList], WellFormedPath q) →
        (entries r').drop (if true then regX.g_count else 0)
          = (([[]] ++
              ("C:".toList ++ [BACKSLASH] ++ "dir".toList ++ [BACKSLASH] ++ "a.txt".toList)
                :: ["b".toList]).take
              ((LoadIniStyle_maxCount 100).toNat - (if true then regX.g_count else 0))).map
              (fun q => (q, baseOrPath q))) :=
  ⟨⟨by decide, by decide, by decide, by decide⟩,
    stored_entry_path_and_basename 100 true regX [[]]
      ("C:".toList ++ [BACKSLASH] ++ "dir".toList ++ [BACKSLASH] ++ "a.txt".toList)
      ["b".toList] (by decide) (by decide) (by decide)⟩

/-- The entry stored for the path `C:\dir\a.txt` is that path with the name
`a.txt`. -/
theorem stored_entry_example :
    (dropFiles 100 false
        ["C:".toList ++ [BACKSLASH] ++ "dir".toList ++ [BACKSLASH] ++ "a.txt".toList]
        Registry.init).map entries
      = some [("C:".toList ++ [BACKSLASH] ++ "dir".toList ++ [BACKSLASH] ++ "a.txt".toList,
          "a.txt".toList)] := by
  decide

/-! ## The registry is written by drops only -/

/-- One message other than a file drop is handled with the registry left as it
is. -/
theorem non_drop_step (allocOk : Bool) (s : AppState) (m : Msg) (hm : m.isDrop = false) :
    ∃ s1 e1, MainWndProc allocOk s m = some (s1, e1) ∧ s1.reg = s.reg := by
  cases m with
  | WM_DROPFILES c d => simp [Msg.isDrop] at hm
  | WM_TIMER a b => cases a <;> exact ⟨_, _, rfl, rfl⟩
  | WM_RBUTTONDOWN c => cases c <;> exact ⟨_, _, rfl, rfl⟩
  | WM_SYSCOMMAND a => cases a <;> exact ⟨_, _, rfl, rfl⟩
  | WM_SHOWWINDOW a => cases a <;> exact ⟨_, _, rfl, rfl⟩
  | WM_MOUSEMOVE lbutton x y =>
    simp only [MainWndProc]
    split_ifs <;> exact ⟨_, _, rfl, rfl⟩
  | _ => exact ⟨_, _, rfl, rfl⟩

/-- C12: for every application state, every sequence of messages other than file
drops (heal-timer ticks, button-down, mouse moves including one that starts a
drag-out, button-up, right-click with or without Ctrl, paint, minimize and hide
notifications, create, destroy, any other message) is handled with the registry
count, every stored path and every stored display name unchanged. -/
theorem only_drop_writes_registry (allocOk : Bool) (s : AppState) (msgs : List Msg)
    (h : msgs.all (fun m => !m.isDrop) = true) :
    ∃ s' es, runMsgs allocOk msgs s = some (s', es) ∧
      s'.reg.g_count = s.reg.g_count ∧ s'.reg.g_paths = s.reg.g_paths ∧
      s'.reg.g_names = s.reg.g_names := by
  induction msgs generalizing s with
  | nil => exact ⟨s, [], rfl, rfl, rfl, rfl⟩
  | cons m rest ih =>
    simp only [List.all_cons, Bool.and_eq_true, Bool.not_eq_true'] at h
    obtain ⟨s1, e1, h1, hreg⟩ := non_drop_step allocOk s m h.1
    obtain ⟨s2, e2, h2, hc, hp, hn⟩ := ih s1 (by
      simpa only [Bool.not_eq_true'] using h.2)
    refine ⟨s2, e1 ++ e2, ?_, ?_, ?_, ?_⟩
    · simp only [runMsgs, h1, h2]
    · rw [hc, hreg]
    · rw [hp, hreg]
    · rw [hn, hreg]

/-- Witness for C12: a heal tick, a press, a far move that starts a drag-out, a
release, a right-click preview, a paint and the minimize and hide notifications,
on the registry holding `x`. -/
theorem only_drop_writes_registry_witness :
    ([Msg.WM_TIMER true true, Msg.WM_LBUTTONDOWN 10 10, Msg.WM_MOUSEMOVE true 40 10,
        Msg.WM_LBUTTONUP, Msg.WM_RBUTTONDOWN false, Msg.WM_PAINT, Msg.WM_SYSCOMMAND true,
        Msg.WM_SHOWWINDOW false].all (fun m => !m.isDrop) = true) ∧
    ∃ s' es, runMsgs true [Msg.WM_TIMER true true, Msg.WM_LBUTTONDOWN 10 10,
        Msg.WM_MOUSEMOVE true 40 10, Msg.WM_LBUTTONUP, Msg.WM_RBUTTONDOWN false, Msg.WM_PAINT,
        Msg.WM_SYSCOMMAND true, Msg.WM_SHOWWINDOW false] (appOf regX) = some (s', es) ∧
      s'.reg.g_count = (appOf regX).reg.g_count ∧ s'.reg.g_paths = (appOf regX).reg.g_paths ∧
      s'.reg.g_names = (appOf regX).reg.g_names :=
  ⟨by decide,
    only_drop_writes_registry true (appOf regX)
      [Msg.WM_TIMER true true, Msg.WM_LBUTTONDOWN 10 10, Msg.WM_MOUSEMOVE true 40 10,
        Msg.WM_LBUTTONUP, Msg.WM_RBUTTONDOWN false, Msg.WM_PAINT, Msg.WM_SYSCOMMAND true,
        Msg.WM_SHOWWINDOW false] (by decide)⟩

/-! ## The preview window: height -/

theorem LoadIniStyle_tip_ranges (iniMinH iniMaxH iniMaxLines : Int) :
    60 ≤ LoadIniStyle_tipMinH iniMinH ∧ 0 ≤ LoadIniStyle_tipMaxH iniMaxH ∧
    1 ≤ LoadIniStyle_tipMaxLines iniMaxLines ∧ LoadIniStyle_tipMaxLines iniMaxLines ≤ 200 := by
  simp only [LoadIniStyle_tipMinH, LoadIniStyle_tipMaxH, LoadIniStyle_tipMaxLines]
  refine ⟨?_, ?_, ?_, ?_⟩ <;> split_ifs <;> omega

/-- C13, as stated, fails: the cap `if (h > maxH) h = maxH` comes after the floor
`if (h < tipMinH) h = tipMinH`, so a maximum height below the minimum height
wins.  With `min_h = 80`, `max_h = 50` the height of one line of 15 pixels is
50; with `min_h = 80`, `max_h = 0`, `max_lines = 1` the derived maximum is 37
and so is the height. -/
theorem tip_height_floor_counterexample :
    (ShowAutoCloseTip_h 1 15 (LoadIniStyle_tipMinH 80) (LoadIniStyle_tipMaxH 50)
        (LoadIniStyle_tipMaxLines 30) = 50
      ∧ (50 : Int) < LoadIniStyle_tipMinH 80)
    ∧ (ShowAutoCloseTip_h 1 15 (LoadIniStyle_tipMinH 80) (LoadIniStyle_tipMaxH 0)
        (LoadIniStyle_tipMaxLines 1) = 37
      ∧ (37 : Int) < LoadIniStyle_tipMinH 80) := by
  decide

/-- C13 (amended): for every number of shown lines, every line height and every
loaded configuration whose maximum height `maxH` (`tipMaxH`, or when that is 0
the height of `tipMaxLines` lines) is not below `tipMinH`, the height computed by
`ShowAutoCloseTip` is never less than `tipMinH` and never more than `maxH`: it is
the height of the shown lines, floored at `tipMinH`, then capped at `maxH`. -/
theorem tip_height_floor (shownLines lineH iniMinH iniMaxH iniMaxLines : Int)
    (hmin : LoadIniStyle_tipMinH iniMinH ≤ ShowAutoCloseTip_maxH lineH
      (LoadIniStyle_tipMaxH iniMaxH) (LoadIniStyle_tipMaxLines iniMaxLines)) :
    LoadIniStyle_tipMinH iniMinH ≤ ShowAutoCloseTip_h shownLines lineH
        (LoadIniStyle_tipMinH iniMinH) (LoadIniStyle_tipMaxH iniMaxH)
        (LoadIniStyle_tipMaxLines iniMaxLines) ∧
    ShowAutoCloseTip_h shownLines lineH (LoadIniStyle_tipMinH iniMinH)
        (LoadIniStyle_tipMaxH iniMaxH) (LoadIniStyle_tipMaxLines iniMaxLines)
      ≤ ShowAutoCloseTip_maxH lineH (LoadIniStyle_tipMaxH iniMaxH)
          (LoadIniStyle_tipMaxLines iniMaxLines) ∧
    ShowAutoCloseTip_h shownLines lineH (LoadIniStyle_tipMinH iniMinH)
        (LoadIniStyle_tipMaxH iniMaxH) (LoadIniStyle_tipMaxLines iniMaxLines)
      = min (max (paddedHeight shownLines lineH) (LoadIniStyle_tipMinH iniMinH))
          (ShowAutoCloseTip_maxH lineH (LoadIniStyle_tipMaxH iniMaxH)
            (LoadIniStyle_tipMaxLines iniMaxLines)) := by
  simp only [ShowAutoCloseTip_h]
  generalize ShowAutoCloseTip_maxH lineH (LoadIniStyle_tipMaxH iniMaxH)
    (LoadIniStyle_tipMaxLines iniMaxLines) = maxH at hmin ⊢
  generalize LoadIniStyle_tipMinH iniMinH = minH at hmin ⊢
  generalize paddedHeight shownLines lineH = d
  refine ⟨?_, ?_, ?_⟩
  · split_ifs <;> omega
  · split_ifs <;> omega
  · split_ifs <;> omega

/-- Witness for C13 (amended): the default style (`min_h = 80`, `max_h = 0`,
`max_lines = 30`), three lines of 15 pixels. -/
theorem tip_height_floor_witness :
    (LoadIniStyle_tipMinH 80 ≤ ShowAutoCloseTip_maxH 15
      (LoadIniStyle_tipMaxH 0) (LoadIniStyle_tipMaxLines 30)) ∧
    (LoadIniStyle_tipMinH 80 ≤ ShowAutoCloseTip_h 3 15
        (LoadIniStyle_tipMinH 80) (LoadIniStyle_tipMaxH 0)
        (LoadIniStyle_tipMaxLines 30) ∧
    ShowAutoCloseTip_h 3 15 (LoadIniStyle_tipMinH 80)
        (LoadIniStyle_tipMaxH 0) (LoadIniStyle_tipMaxLines 30)
      ≤ ShowAutoCloseTip_maxH 15 (LoadIniStyle_tipMaxH 0)
          (LoadIniStyle_tipMaxLines 30) ∧
    ShowAutoCloseTip_h 3 15 (LoadIniStyle_tipMinH 80)
        (LoadIniStyle_tipMaxH 0) (LoadIniStyle_tipMaxLines 30)
      = min (max (paddedHeight 3 15) (LoadIniStyle_tipMinH 80))
          (ShowAutoCloseTip_maxH 15 (LoadIniStyle_tipMaxH 0)
            (LoadIniStyle_tipMaxLines 30))) :=
  ⟨by decide, tip_height_floor 3 15 80 0 30 (by decide)⟩

/-! ## The preview window: position -/

theorem encodeDoubleNul_length (paths : Nat → WStr) :
    ∀ (rows : List Nat),
      (encodeDoubleNul (rows.map (fun i => cstr (paths i)))).length
        = 1 + sumLenPlusOne paths rows
  | [] => by simp [encodeDoubleNul_nil, sumLenPlusOne]
  | i :: rest => by
    have ih := encodeDoubleNul_length paths rest
    by_cases h : cstr (paths i) = []
    · have h0 : wcslen (paths i) = 0 := (wcslen_eq_zero_iff _).mpr h
      rw [List.map_cons, h, encodeDoubleNul_cons_nil, ih]
      simp [sumLenPlusOne, h0]
    · have h0 : ¬ wcslen (paths i) = 0 := fun e => h ((wcslen_eq_zero_iff _).mp e)
      have hs : sumLenPlusOne paths (i :: rest)
          = (wcslen (paths i) + 1) + sumLenPlusOne paths rest := by
        simp [sumLenPlusOne, List.filter_cons, h0]
      rw [List.map_cons, encodeDoubleNul_cons h, List.length_append, List.length_cons, ih, hs]
      simp only [wcslen]
      omega

theorem encodeDoubleNul_all_empty (ps : List WStr) (h : ∀ p ∈ ps, p = []) :
    encodeDoubleNul ps = [NUL] := by
  have hf : ps.filter (fun p => p ≠ []) = [] := by
    rw [List.filter_eq_nil_iff]
    intro p hp
    simp [h p hp]
  unfold encodeDoubleNul
  rw [hf]
  rfl

theorem GetData_declines (d : DataObject) (h : d.m_listChars < 2)
    (argsOk isHDrop hasHGlobal memOk : Bool) :
    (d.GetData argsOk isHDrop hasHGlobal memOk).2 = none ∧
    d.GetData true true true memOk = (HRESULT.DV_E_FORMATETC, none) := by
  constructor
  · unfold DataObject.GetData
    split_ifs
    · rfl
    · rfl
    · rfl
    · cases d.m_list with
      | none => rfl
      | some l => simp [h]
  · unfold DataObject.GetData
    cases d.m_list with
    | none => rfl
    | some l => simp [h]

/-- C15: for every `count ≥ 1` rows (and a successful allocation) the constructor
runs without a store outside its buffer; the final `m_listChars` is 1 plus the
sum of `len + 1` over the rows of non-zero length, the allocation is the larger
of 2 and that number, so `m_listChars` never exceeds it; the skip test of the
counting loop (`len == 0`) and that of the copying loop (first character NUL)
agree on every row; and when every row is empty the list is a single NUL,
`m_listChars` is 1 and `GetData` produces no payload. -/
theorem payload_buffer_bound (paths : Nat → WStr) (count : Int) (hc : 1 ≤ count) :
    ∃ d, DataObject.new paths count true = some d ∧
      d.m_listChars = 1 + sumLenPlusOne paths (List.range count.toNat) ∧
      d.allocated = max 2 (1 + sumLenPlusOne paths (List.range count.toNat)) ∧
      d.m_listChars ≤ d.allocated ∧
      (∃ list, d.m_list = some list ∧ list.length = d.m_listChars) ∧
      (∀ i, wcslen (paths i) = 0 ↔ (paths i).headD NUL = NUL) ∧
      ((∀ i, i < count.toNat → wcslen (paths i) = 0) →
        d.m_list = some [NUL] ∧ d.m_listChars = 1 ∧
        ∀ argsOk isHDrop hasHGlobal memOk,
          (d.GetData argsOk isHDrop hasHGlobal memOk).2 = none ∧
          d.GetData true true true memOk = (HRESULT.DV_E_FORMATETC, none)) := by
  have hlen := encodeDoubleNul_length paths (List.range count.toNat)
  refine ⟨_, DataObject_new_eq paths count hc, ?_, ?_, ?_, ⟨_, rfl, rfl⟩,
    fun i => skip_tests_agree (paths i), ?_⟩
  · simp only [rowsOf]; exact hlen
  · simp only [rowsOf]; rw [hlen]
  · simp only [rowsOf]; exact le_max_right _ _
  · intro hall
    have hnil : encodeDoubleNul (rowsOf (fun i => cstr (paths i)) count.toNat) = [NUL] := by
      apply encodeDoubleNul_all_empty
      intro p hp
      obtain ⟨i, hi, rfl⟩ := List.mem_map.mp hp
      exact (wcslen_eq_zero_iff _).mp (hall i (List.mem_range.mp hi))
    simp only [hnil, List.length_singleton, true_and]
    intro a b c e
    exact GetData_declines _ (by simp) a b c e

/-- Witness for C15: the rows `a`, empty, `bc`: 6 characters written, 6
allocated. -/
theorem payload_buffer_bound_witness :
    ((1 : Int) ≤ 3) ∧
    DataObject.new rows3 3 true
      = some { m_list := some ("a".toList ++ [NUL] ++ "bc".toList ++ [NUL, NUL]),
               m_listChars := 6, allocated := 6 } ∧
    ∃ d, DataObject.new rows3 3 true = some d ∧
      d.m_listChars = 1 + sumLenPlusOne rows3 (List.range (3 : Int).toNat) ∧
      d.allocated = max 2 (1 + sumLenPlusOne rows3 (List.range (3 : Int).toNat)) ∧
      d.m_listChars ≤ d.allocated ∧
      (∃ list, d.m_list = some list ∧ list.length = d.m_listChars) ∧
      (∀ i, wcslen (rows3 i) = 0 ↔ (rows3 i).headD NUL = NUL) ∧
      ((∀ i, i < (3 : Int).toNat → wcslen (rows3 i) = 0) →
        d.m_list = some [NUL] ∧ d.m_listChars = 1 ∧
        ∀ argsOk isHDrop hasHGlobal memOk,
          (d.GetData argsOk isHDrop hasHGlobal memOk).2 = none ∧
          d.GetData true true true memOk = (HRESULT.DV_E_FORMATETC, none)) :=
  ⟨by decide, by decide, payload_buffer_bound rows3 3 (by decide)⟩

/-- The constructor on three empty rows: one NUL written in a buffer of two
characters, and `GetData` answers `DV_E_FORMATETC`. -/
theorem payload_all_empty_example :
    DataObject.new (fun _ => []) 3 true
        = some { m_list := some [NUL], m_listChars := 1, allocated := 2 }
    ∧ (DataObject.new (fun _ => []) 3 true).map (fun d => d.GetData true true true true)
        = some (HRESULT.DV_E_FORMATETC, none) := by
  decide

end TransFile
